import Mathlib

/-!
Verification development for a reversi (Othello) engine.

The engine stores the board in a 128-bit word: cell (x, y) with
0 ≤ x, y < 8 occupies bit (x + 1) * 10 + (y + 1), so that one unused
guard bit row separates adjacent columns and the valid cells are exactly
the bits of `availableBits`.  `PosSet` values are embedded as `Nat`
(the value of the `u128`), and positions carry a proof that their bit
index is a valid cell.

Machine integers are embedded as follows: `u128` bit sets as `Nat`
(shifts that could overflow the 128-bit word are reduced `% 2 ^ 128`),
`u16` pattern indices as `Nat` reduced `% 2 ^ 16` after each operation,
and `i32` scores as unbounded `Int` together with explicit range
hypotheses where a theorem needs them.
-/

/-- Mask of the 64 valid cell bits of the 128-bit board word
(`AVAILABLE_BITS` in the sources): rows of `0b0111111110` shifted by
multiples of `Board::SIZE + 2 = 10`. -/
def availableBits : Nat :=
  (0b0111111110 <<< 10) ||| (0b0111111110 <<< 20) ||| (0b0111111110 <<< 30) |||
  (0b0111111110 <<< 40) ||| (0b0111111110 <<< 50) ||| (0b0111111110 <<< 60) |||
  (0b0111111110 <<< 70) ||| (0b0111111110 <<< 80)

/-- A board position: a bit index into the 128-bit board word that is one
of the 64 valid cells (the sources construct `Pos` only through the
checked constructors `from_xy` / `from_index`, so validity is an
invariant of the type). -/
structure Pos where
  idx : Nat
  valid : availableBits.testBit idx = true

instance : DecidableEq Pos := fun a b =>
  if h : a.idx = b.idx then
    isTrue (by cases a; cases b; simp only at h; subst h; rfl)
  else
    isFalse (by intro hab; exact h (congrArg Pos.idx hab))

/-- Truncating left shift of a 128-bit word. -/
def u128shl (s k : Nat) : Nat := (s <<< k) % (2 ^ 128)

/-- Right shift of a 128-bit word (never overflows). -/
def u128shr (s k : Nat) : Nat := s >>> k

/-- Single-bit mask of a position (`Pos::bit`); the bit index is at most
88, so the `u128` shift never truncates. -/
def Pos.bit (p : Pos) : Nat := u128shl 1 p.idx

/-- The x coordinate (column) of a position. -/
def Pos.x (p : Pos) : Nat := p.idx / 10 - 1

/-- The y coordinate (row) of a position. -/
def Pos.y (p : Pos) : Nat := p.idx % 10 - 1

/-- All 64 cells are valid bit positions of `availableBits`. -/
theorem availableBits_xy : ∀ x : Nat, x < 8 → ∀ y : Nat, y < 8 →
    availableBits.testBit ((x + 1) * 10 + (y + 1)) = true := by decide

/-- Checked constructor from coordinates (`Pos::from_xy`). -/
def Pos.from_xy (x y : Int) : Option Pos :=
  if h : 0 ≤ x ∧ x < 8 ∧ 0 ≤ y ∧ y < 8 then
    some ⟨(x.toNat + 1) * 10 + (y.toNat + 1), by
      refine availableBits_xy _ ?_ _ ?_ <;> omega⟩
  else
    none

/-- Checked constructor from a bit index (`Pos::from_index`): the source
tests `(1 << index) & AVAILABLE_BITS != 0`, which holds exactly when the
index is in range and names a valid cell. -/
def Pos.from_index (i : Int) : Option Pos :=
  if h : 0 ≤ i ∧ i < 128 ∧ availableBits.testBit i.toNat = true then
    some ⟨i.toNat, h.2.2⟩
  else
    none

/-- The full-board set `PosSet::ALL` (every valid cell; the sources
verify in a unit test that the union of all 64 cell bits equals
`AVAILABLE_BITS`). -/
def PosSet.ALL : Nat := availableBits

/-- Complement of a `PosSet` (`impl Not for PosSet`): `!bits &
AVAILABLE_BITS`, i.e. the valid cells not in the set. -/
def PosSet.compl (s : Nat) : Nat := availableBits ^^^ (s &&& availableBits)

/-- Membership test (`PosSet::contains`): `bits & pos.bit() != 0`. -/
def PosSet.contains (s : Nat) (p : Pos) : Bool := s &&& p.bit != 0

/-- Number of set bits (`u128::count_ones`), as the cardinality of the
set of bit indices below 128 that are set. -/
def PosSet.count (s : Nat) : Nat :=
  ((List.range 128).filter (fun i => s.testBit i)).length

/-- Ascending iteration over the members of a `PosSet`
(`PosSet::into_iter`, which yields bit indices in increasing order and
converts them through `Pos::from_index`). -/
def PosSet.toList (s : Nat) : List Pos :=
  (List.range 128).filterMap (fun i => if s.testBit i then Pos.from_index i else none)

def Pos.A1 : Pos := ⟨11, by decide⟩

def Pos.A2 : Pos := ⟨12, by decide⟩

def Pos.A3 : Pos := ⟨13, by decide⟩

def Pos.A4 : Pos := ⟨14, by decide⟩

def Pos.A5 : Pos := ⟨15, by decide⟩

def Pos.A6 : Pos := ⟨16, by decide⟩

def Pos.A7 : Pos := ⟨17, by decide⟩

def Pos.A8 : Pos := ⟨18, by decide⟩

def Pos.B1 : Pos := ⟨21, by decide⟩

def Pos.B2 : Pos := ⟨22, by decide⟩

def Pos.B3 : Pos := ⟨23, by decide⟩

def Pos.B4 : Pos := ⟨24, by decide⟩

def Pos.B5 : Pos := ⟨25, by decide⟩

def Pos.B6 : Pos := ⟨26, by decide⟩

def Pos.B7 : Pos := ⟨27, by decide⟩

def Pos.B8 : Pos := ⟨28, by decide⟩

def Pos.C1 : Pos := ⟨31, by decide⟩

def Pos.C2 : Pos := ⟨32, by decide⟩

def Pos.C3 : Pos := ⟨33, by decide⟩

def Pos.C4 : Pos := ⟨34, by decide⟩

def Pos.C5 : Pos := ⟨35, by decide⟩

def Pos.C6 : Pos := ⟨36, by decide⟩

def Pos.C7 : Pos := ⟨37, by decide⟩

def Pos.C8 : Pos := ⟨38, by decide⟩

def Pos.D1 : Pos := ⟨41, by decide⟩

def Pos.D2 : Pos := ⟨42, by decide⟩

def Pos.D3 : Pos := ⟨43, by decide⟩

def Pos.D4 : Pos := ⟨44, by decide⟩

def Pos.D5 : Pos := ⟨45, by decide⟩

def Pos.D6 : Pos := ⟨46, by decide⟩

def Pos.D7 : Pos := ⟨47, by decide⟩

def Pos.D8 : Pos := ⟨48, by decide⟩

def Pos.E1 : Pos := ⟨51, by decide⟩

def Pos.E2 : Pos := ⟨52, by decide⟩

def Pos.E3 : Pos := ⟨53, by decide⟩

def Pos.E4 : Pos := ⟨54, by decide⟩

def Pos.E5 : Pos := ⟨55, by decide⟩

def Pos.E6 : Pos := ⟨56, by decide⟩

def Pos.E7 : Pos := ⟨57, by decide⟩

def Pos.E8 : Pos := ⟨58, by decide⟩

def Pos.F1 : Pos := ⟨61, by decide⟩

def Pos.F2 : Pos := ⟨62, by decide⟩

def Pos.F3 : Pos := ⟨63, by decide⟩

def Pos.F4 : Pos := ⟨64, by decide⟩

def Pos.F5 : Pos := ⟨65, by decide⟩

def Pos.F6 : Pos := ⟨66, by decide⟩

def Pos.F7 : Pos := ⟨67, by decide⟩

def Pos.F8 : Pos := ⟨68, by decide⟩

def Pos.G1 : Pos := ⟨71, by decide⟩

def Pos.G2 : Pos := ⟨72, by decide⟩

def Pos.G3 : Pos := ⟨73, by decide⟩

def Pos.G4 : Pos := ⟨74, by decide⟩

def Pos.G5 : Pos := ⟨75, by decide⟩

def Pos.G6 : Pos := ⟨76, by decide⟩

def Pos.G7 : Pos := ⟨77, by decide⟩

def Pos.G8 : Pos := ⟨78, by decide⟩

def Pos.H1 : Pos := ⟨81, by decide⟩

def Pos.H2 : Pos := ⟨82, by decide⟩

def Pos.H3 : Pos := ⟨83, by decide⟩

def Pos.H4 : Pos := ⟨84, by decide⟩

def Pos.H5 : Pos := ⟨85, by decide⟩

def Pos.H6 : Pos := ⟨86, by decide⟩

def Pos.H7 : Pos := ⟨87, by decide⟩

def Pos.H8 : Pos := ⟨88, by decide⟩

/-- A board: the disks of the side to move (`mine_disks`) and of the
opponent (`others_disks`), each a `PosSet` embedded as `Nat`. -/
structure Board where
  mine_disks : Nat
  others_disks : Nat
deriving DecidableEq

/-- A disk on a board, relative to the side to move. -/
inductive Disk where
  | Mine
  | Others
deriving DecidableEq

/-- The standard 4-disk opening board (`Board::new`): the side to move
owns E4 and D5, the opponent owns D4 and E5. -/
def Board.new : Board :=
  { mine_disks := (0 ||| Pos.E4.bit) ||| Pos.D5.bit
    others_disks := (0 ||| Pos.D4.bit) ||| Pos.E5.bit }

/-- The empty board (`Board::empty`). -/
def Board.empty : Board := { mine_disks := 0, others_disks := 0 }

/-- Disk lookup (`Board::get_disk`): `mine_disks` is consulted first. -/
def Board.get_disk (b : Board) (pos : Pos) : Option Disk :=
  if PosSet.contains b.mine_disks pos then some Disk.Mine
  else if PosSet.contains b.others_disks pos then some Disk.Others
  else none

/-- Place a disk (`Board::set_disk`): insert the bit into one side and
remove it from the other. -/
def Board.set_disk (b : Board) (pos : Pos) (disk : Disk) : Board :=
  let mask := 0 ||| pos.bit
  match disk with
  | Disk.Mine =>
      { mine_disks := b.mine_disks ||| mask
        others_disks := b.others_disks &&& PosSet.compl mask }
  | Disk.Others =>
      { mine_disks := b.mine_disks &&& PosSet.compl mask
        others_disks := b.others_disks ||| mask }

/-- Count disks of one kind, or the empty cells for `none`
(`Board::count_disk`). -/
def Board.count_disk (b : Board) (disk : Option Disk) : Nat :=
  match disk with
  | some Disk.Mine => PosSet.count b.mine_disks
  | some Disk.Others => PosSet.count b.others_disks
  | none => 64 - PosSet.count b.mine_disks - PosSet.count b.others_disks

/-- Total number of disks on the board (`Board::count_all_disks`). -/
def Board.count_all_disks (b : Board) : Nat :=
  PosSet.count b.mine_disks + PosSet.count b.others_disks

/-- Swap the two sides (`Board::reverse`). -/
def Board.reverse (b : Board) : Board :=
  { mine_disks := b.others_disks, others_disks := b.mine_disks }

/-- The cells of column A (`A1 | A2 | ... | A8`, bit indices 11-18). -/
def columnA : Nat :=
  ((((((Pos.bit ⟨11, by decide⟩ ||| Pos.bit ⟨12, by decide⟩) |||
    Pos.bit ⟨13, by decide⟩) ||| Pos.bit ⟨14, by decide⟩) |||
    Pos.bit ⟨15, by decide⟩) ||| Pos.bit ⟨16, by decide⟩) |||
    Pos.bit ⟨17, by decide⟩) ||| Pos.bit ⟨18, by decide⟩

/-- The cells of column H (`H1 | H2 | ... | H8`, bit indices 81-88). -/
def columnH : Nat :=
  ((((((Pos.bit ⟨81, by decide⟩ ||| Pos.bit ⟨82, by decide⟩) |||
    Pos.bit ⟨83, by decide⟩) ||| Pos.bit ⟨84, by decide⟩) |||
    Pos.bit ⟨85, by decide⟩) ||| Pos.bit ⟨86, by decide⟩) |||
    Pos.bit ⟨87, by decide⟩) ||| Pos.bit ⟨88, by decide⟩

/-- The mask excluding columns A and H (`left_right_mask` in the flip
routines). -/
def left_right_mask : Nat :=
  PosSet.compl ((0 ||| columnA) ||| columnH)

/-- One unrolled step of the flip walks: `m |= (m << offset) & e`. -/
def stepShl (e offset m : Nat) : Nat := m ||| (u128shl m offset &&& e)

/-- One unrolled step of the flip walks: `m |= (m >> offset) & e`. -/
def stepShr (e offset m : Nat) : Nat := m ||| (u128shr m offset &&& e)

/-- One direction of the flip computation of `Board::flipped_set_unchecked`
(the `right_moves` closure): walk the played bit across contiguous
opponent disks by left shifts (one initial step plus five unrolled
`m |= (m << offset) & e` steps), walk the own disks backwards by right
shifts, and intersect. -/
def Board.flipRight (b : Board) (posBit mask offset : Nat) : Nat :=
  let e := b.others_disks &&& mask
  let m := stepShl e offset (stepShl e offset (stepShl e offset (stepShl e offset
    (stepShl e offset (u128shl posBit offset &&& e)))))
  let o := stepShr e offset (stepShr e offset (stepShr e offset (stepShr e offset
    (stepShr e offset (u128shr b.mine_disks offset &&& e)))))
  m &&& o

/-- One direction of the flip computation of `Board::flipped_set_unchecked`
(the `left_moves` closure), the mirror image of `Board.flipRight`. -/
def Board.flipLeft (b : Board) (posBit mask offset : Nat) : Nat :=
  let e := b.others_disks &&& mask
  let m := stepShr e offset (stepShr e offset (stepShr e offset (stepShr e offset
    (stepShr e offset (u128shr posBit offset &&& e)))))
  let o := stepShl e offset (stepShl e offset (stepShl e offset (stepShl e offset
    (stepShl e offset (u128shl b.mine_disks offset &&& e)))))
  m &&& o

/-- The set of opponent disks flipped by playing at `pos`
(`Board::flipped_set_unchecked`), the union of the eight directional
computations with the offsets and masks exactly as in the source:
offsets 1, 9, 8, 7, where offset 8 uses the full mask and the others the
left/right mask. -/
def Board.flipped_set_unchecked (b : Board) (pos : Pos) : Nat :=
  let top_bottom_mask := PosSet.ALL
  let posBit := 0 ||| pos.bit
  ((((((Board.flipLeft b posBit left_right_mask 1 |||
      Board.flipLeft b posBit left_right_mask 9) |||
      Board.flipLeft b posBit top_bottom_mask 8) |||
      Board.flipLeft b posBit left_right_mask 7) |||
      Board.flipRight b posBit left_right_mask 1) |||
      Board.flipRight b posBit left_right_mask 9) |||
      Board.flipRight b posBit top_bottom_mask 8) |||
      Board.flipRight b posBit left_right_mask 7

/-- Checked flip-set computation (`Board::flipped_set`): `none` when the
cell is occupied or nothing would be flipped. -/
def Board.flipped_set (b : Board) (pos : Pos) : Option Nat :=
  if PosSet.contains (b.mine_disks ||| b.others_disks) pos then none
  else
    let flipped := b.flipped_set_unchecked pos
    if flipped = 0 then none else some flipped

/-- Apply a move (`Board::flipped`): the returned board is seen from the
opponent, so the mover's disks (old `mine` plus the flipped set plus the
played cell) become `others_disks`. -/
def Board.flipped (b : Board) (pos : Pos) : Option Board :=
  (b.flipped_set pos).map (fun flipped =>
    { mine_disks := b.others_disks ^^^ flipped
      others_disks := (b.mine_disks ^^^ flipped) ^^^ pos.bit })

/-- One direction of `Board::flip_candidates` (the `right_moves`
closure): walk the own disks across contiguous opponent disks by left
shifts and step once more. -/
def Board.candRight (b : Board) (mask offset : Nat) : Nat :=
  let e := b.others_disks &&& mask
  let m := stepShl e offset (stepShl e offset (stepShl e offset (stepShl e offset
    (stepShl e offset (u128shl b.mine_disks offset &&& e)))))
  u128shl m offset

/-- One direction of `Board::flip_candidates` (the `left_moves` closure),
the mirror image of `Board.candRight`. -/
def Board.candLeft (b : Board) (mask offset : Nat) : Nat :=
  let e := b.others_disks &&& mask
  let m := stepShr e offset (stepShr e offset (stepShr e offset (stepShr e offset
    (stepShr e offset (u128shr b.mine_disks offset &&& e)))))
  u128shr m offset

/-- Bit-parallel legal-move computation (`Board::flip_candidates`), with
the offsets and masks exactly as in the source (offsets 1, 9, 8, 7). -/
def Board.flip_candidates (b : Board) : Nat :=
  let top_bottom_mask := PosSet.ALL
  let empty_cells := PosSet.compl b.mine_disks &&& PosSet.compl b.others_disks
  empty_cells &&&
    (((((((Board.candLeft b left_right_mask 1 |||
      Board.candLeft b left_right_mask 9) |||
      Board.candLeft b top_bottom_mask 8) |||
      Board.candLeft b left_right_mask 7) |||
      Board.candRight b left_right_mask 1) |||
      Board.candRight b left_right_mask 9) |||
      Board.candRight b top_bottom_mask 8) |||
      Board.candRight b left_right_mask 7)

/-- Whether the side to move has a legal move (`Board::can_play`). -/
def Board.can_play (b : Board) : Bool := b.flip_candidates != 0

/-- Whether a move at `pos` is legal (`Board::can_flip`). -/
def Board.can_flip (b : Board) (pos : Pos) : Bool :=
  !PosSet.contains (b.mine_disks ||| b.others_disks) pos &&
    b.flipped_set_unchecked pos != 0

/-- All legal moves with their successor boards (`Board::all_flipped`),
iterating the candidate set in ascending bit order. -/
def Board.all_flipped (b : Board) : List (Pos × Board) :=
  (PosSet.toList b.flip_candidates).map (fun pos =>
    let flipped := b.flipped_set_unchecked pos
    (pos,
      { mine_disks := b.others_disks ^^^ flipped
        others_disks := (b.mine_disks ^^^ flipped) ^^^ pos.bit }))

/-- Direction of a line on the board (`Direction`). -/
inductive Direction where
  | UpLeft
  | Up
  | UpRight
  | Left
  | Right
  | DownLeft
  | Down
  | DownRight
deriving DecidableEq

/-- The eight directions in declaration order (`Direction::ALL`). -/
def Direction.ALL : List Direction :=
  [Direction.UpLeft, Direction.Up, Direction.UpRight, Direction.Left,
   Direction.Right, Direction.DownLeft, Direction.Down, Direction.DownRight]

/-- Bit-index displacement of one step in a direction
(`Direction::to_add_amount`): up is -1, down is +1, left is
-(Board::SIZE + 2) = -10, right is +10. -/
def Direction.to_add_amount (d : Direction) : Int :=
  match d with
  | Direction.UpLeft => -11
  | Direction.Up => -1
  | Direction.UpRight => 9
  | Direction.Left => -10
  | Direction.Right => 10
  | Direction.DownLeft => -9
  | Direction.Down => 1
  | Direction.DownRight => 11

/-- Fuel-bounded walk along a direction (`Pos::line` unfolds
`iter::successors` over `Pos::from_index`; a line holds at most seven
further cells, so fuel 8 is exact). -/
def Pos.lineAux (amt : Int) : Nat → Pos → List Pos
  | 0, _ => []
  | fuel + 1, q =>
    match Pos.from_index ((q.idx : Int) + amt) with
    | none => []
    | some r => r :: Pos.lineAux amt fuel r

/-- The cells strictly beyond `p` in direction `dir`, in walking order
(`Pos::line`). -/
def Pos.line (p : Pos) (dir : Direction) : List Pos :=
  Pos.lineAux dir.to_add_amount 8 p

/-- Scan one line for a capture.  Specification-side definition for the
naive move scan: starting just after the played cell, a line captures
when it begins with one or more opponent disks followed directly by an
own disk. -/
def Board.lineScan (b : Board) : Bool → List Pos → Bool
  | _, [] => false
  | seenOpponent, q :: rest =>
    match b.get_disk q with
    | some Disk.Others => Board.lineScan b true rest
    | some Disk.Mine => seenOpponent
    | none => false

/-- Naive per-cell legality test, following the specification: walking
each compass direction over contiguous opponent disks must reach a
terminating own disk. -/
def Board.naiveCaptures (b : Board) (p : Pos) : Bool :=
  Direction.ALL.any (fun d => Board.lineScan b false (p.line d))

/-- All 64 positions in ascending bit order (`Pos::iter_all`). -/
def Pos.allList : List Pos :=
  (List.range 128).filterMap (fun i => Pos.from_index i)

/-- Naive 8-direction per-cell legal-move scan.  This is the
specification-side reference for `Board::flip_candidates`: for each
empty cell, walk each compass direction over contiguous opponent disks
and require a terminating own disk. -/
def Board.naive_flip_candidates (b : Board) : Nat :=
  Pos.allList.foldl
    (fun acc p =>
      if b.get_disk p = none && b.naiveCaptures p then acc ||| p.bit else acc)
    0

/-- Absolute disk color (`Color`). -/
inductive Color where
  | Black
  | White
deriving DecidableEq

/-- The opposite color (`Color::reverse`). -/
def Color.reverse (c : Color) : Color :=
  match c with
  | Color.Black => Color.White
  | Color.White => Color.Black

/-- Whether a game has ended (`GameState`). -/
inductive GameState where
  | Turn
  | GameOver
deriving DecidableEq

/-- Error returned by `Game::put_disk` (`PutError`): the game is already
over, or no disk can be put at the given position. -/
inductive PutError where
  | GameOver
  | CannotPut (pos : Pos)
deriving DecidableEq

/-- A running game (`Game`): terminal flag, current board (seen from the
side to move), the absolute color of the side to move, and the history
of previous boards. -/
structure Game where
  state : GameState
  board : Board
  turn_color : Color
  history : List Board
deriving DecidableEq

/-- A fresh game (`Game::new` / `Default`). -/
def Game.new : Game :=
  { state := GameState.Turn, board := Board.new, turn_color := Color.Black,
    history := [] }

/-- Whether the game is over (`Game::is_game_over`). -/
def Game.is_game_over (g : Game) : Bool :=
  match g.state with
  | GameState.Turn => false
  | GameState.GameOver => true

/-- Apply a move to the game (`Game::put_disk`).  The Rust method
mutates `&mut self` and returns `Result<(), PutError>`; it is embedded
as a function returning the result together with the game value after
the call.  After a successful move the board is flipped, the history is
extended, and the pass loop (run at most twice) restores the first
orientation in which the side to move can play, or marks the game over. -/
def Game.put_disk (g : Game) (pos : Pos) : Except PutError Unit × Game :=
  if g.is_game_over then (Except.error PutError.GameOver, g)
  else
    match g.board.flipped pos with
    | none => (Except.error (PutError.CannotPut pos), g)
    | some flipped =>
      let g1 : Game :=
        { state := g.state, board := flipped,
          turn_color := g.turn_color.reverse,
          history := g.history ++ [g.board] }
      if g1.board.can_play then (Except.ok (), g1)
      else
        let g2 : Game :=
          { g1 with board := g1.board.reverse,
                    turn_color := g1.turn_color.reverse }
        if g2.board.can_play then (Except.ok (), g2)
        else
          let g3 : Game :=
            { g2 with board := g2.board.reverse,
                      turn_color := g2.turn_color.reverse }
          (Except.ok (), { g3 with state := GameState.GameOver })

/-- Claim C1.  The bit-parallel `flip_candidates` is NOT bit-identical to
the naive 8-direction per-cell line scan: already on the standard opening
board (whose `mine`/`others` sets are disjoint) the line scan yields
{C4, D3, E6, F5} (the value the unit test in the sources also expects),
while `flip_candidates` yields only {D3, E6}.  The directional shift
offsets 1, 9, 8, 7 of the bit-parallel code do not match the cell layout
of the 128-bit word, whose horizontal and second diagonal strides are 10
and 11. -/
theorem flip_candidates_deviates_from_line_scan :
    Board.naive_flip_candidates Board.new =
      ((Pos.C4.bit ||| Pos.D3.bit) ||| Pos.E6.bit) ||| Pos.F5.bit ∧
    Board.flip_candidates Board.new = Pos.D3.bit ||| Pos.E6.bit ∧
    Board.flip_candidates Board.new ≠ Board.naive_flip_candidates Board.new := by
  refine ⟨by decide, by decide, by decide⟩

/-- Claim C4.  The opening scenario: black plays D3 on the standard
opening board.  The move succeeds, exactly one disk (D4) is flipped (the
claim says two), black then owns 4 disks and white 1 (in the returned
board the mover's disks are `others_disks`).  The legal replies computed
by the code are only {E3}, whereas the naive line scan (and the unit
test in the sources) gives {C3, C5, E3} as the claim states. -/
theorem opening_d3_code_behaviour :
    (Board.new.flipped_set Pos.D3).map PosSet.count = some 1 ∧
    (Board.new.flipped Pos.D3).map (fun b => PosSet.count b.others_disks) = some 4 ∧
    (Board.new.flipped Pos.D3).map (fun b => PosSet.count b.mine_disks) = some 1 ∧
    (Board.new.flipped Pos.D3).map Board.flip_candidates = some (0 ||| Pos.E3.bit) ∧
    (Board.new.flipped Pos.D3).map Board.naive_flip_candidates =
      some ((Pos.C3.bit ||| Pos.C5.bit) ||| Pos.E3.bit) ∧
    (0 ||| Pos.E3.bit) ≠ (Pos.C3.bit ||| Pos.C5.bit) ||| Pos.E3.bit := by
  refine ⟨by decide, by decide, by decide, by decide, by decide, by decide⟩

/-- Claim C3, counterexample.  Playing D3 on the standard opening board
flips one disk, but the total number of occupied cells grows from 4 to
5, i.e. by 1 and not by `flip_count + 1 = 2`: a move adds exactly one
new disk, the captured disks merely change sides. -/
theorem flipped_total_count_counterexample :
    Board.new.count_all_disks = 4 ∧
    (Board.new.flipped_set Pos.D3).map PosSet.count = some 1 ∧
    (Board.new.flipped Pos.D3).map Board.count_all_disks = some 5 ∧
    (5 : Nat) ≠ 4 + (1 + 1) := by
  refine ⟨by decide, by decide, by decide, by decide⟩

/-- The result component of `Game::put_disk` depends only on the
terminal flag and on whether `Board::flipped` accepts the move. -/
theorem Game.put_disk_fst (g : Game) (pos : Pos) :
    (g.put_disk pos).1 =
      (if g.is_game_over then Except.error PutError.GameOver
       else match g.board.flipped pos with
         | none => Except.error (PutError.CannotPut pos)
         | some _ => Except.ok ()) := by
  unfold Game.put_disk
  by_cases hgo : g.is_game_over
  · simp [hgo]
  · cases hf : g.board.flipped pos with
    | none => simp [hgo, hf]
    | some fb =>
      simp only [hgo, if_false, Bool.false_eq_true, hf]
      split_ifs <;> rfl

/-- The `Board::flipped` guard: the move is rejected exactly when the
cell is occupied or nothing would be flipped. -/
theorem Board.flipped_eq_none (b : Board) (pos : Pos) :
    b.flipped pos = none ↔
      (PosSet.contains (b.mine_disks ||| b.others_disks) pos = true ∨
        b.flipped_set_unchecked pos = 0) := by
  unfold Board.flipped Board.flipped_set
  by_cases h1 : PosSet.contains (b.mine_disks ||| b.others_disks) pos <;>
    by_cases h2 : b.flipped_set_unchecked pos = 0 <;>
      simp [h1, h2]

/-- Claim C8.  Characterization of `Game::put_disk`: it fails with the
game-over error exactly when the game is already over; otherwise it
fails with the cannot-put error exactly when `Board::flipped` rejects
the move, which happens exactly when the cell is occupied or the move
captures no disk; in all remaining cases it succeeds. -/
theorem put_disk_result_cases (g : Game) (pos : Pos) :
    ((g.put_disk pos).1 = Except.error PutError.GameOver ↔ g.is_game_over = true) ∧
    ((g.put_disk pos).1 = Except.error (PutError.CannotPut pos) ↔
      (g.is_game_over = false ∧ g.board.flipped pos = none)) ∧
    ((g.put_disk pos).1 = Except.ok () ↔
      (g.is_game_over = false ∧ (g.board.flipped pos).isSome = true)) ∧
    (g.board.flipped pos = none ↔
      (PosSet.contains (g.board.mine_disks ||| g.board.others_disks) pos = true ∨
        g.board.flipped_set_unchecked pos = 0)) := by
  refine ⟨?_, ?_, ?_, Board.flipped_eq_none g.board pos⟩ <;>
    rw [Game.put_disk_fst] <;>
      by_cases hgo : g.is_game_over <;>
        cases hf : g.board.flipped pos <;>
          simp [hgo, hf]

/-- Claim C10.  Whenever `Game::put_disk` returns an error, the game
value is unchanged: board, turn color, terminal flag and history are all
as before the call. -/
theorem put_disk_error_preserves_game (g : Game) (pos : Pos) (e : PutError)
    (h : (g.put_disk pos).1 = Except.error e) : (g.put_disk pos).2 = g := by
  rw [Game.put_disk_fst] at h
  by_cases hgo : g.is_game_over
  · unfold Game.put_disk
    simp [hgo]
  · cases hf : g.board.flipped pos with
    | none =>
      unfold Game.put_disk
      simp [hgo, hf]
    | some fb => simp [hgo, hf] at h

/-- Witness for `put_disk_error_preserves_game`, at a finished game. -/
theorem put_disk_error_preserves_game_witness :
    (Game.put_disk
        { state := GameState.GameOver, board := Board.new,
          turn_color := Color.Black, history := [] } Pos.A1).1 =
      Except.error PutError.GameOver ∧
    (Game.put_disk
        { state := GameState.GameOver, board := Board.new,
          turn_color := Color.Black, history := [] } Pos.A1).2 =
      { state := GameState.GameOver, board := Board.new,
        turn_color := Color.Black, history := [] } :=
  ⟨rfl, put_disk_error_preserves_game _ _ PutError.GameOver rfl⟩

/-- Membership in a conjunction of masks. -/
theorem sub_of_land_right (a e : Nat) :
    ∀ i, (a &&& e).testBit i = true → e.testBit i = true := by
  intro i h
  rw [Nat.testBit_land] at h
  exact (Bool.and_eq_true _ _ |>.mp h).2

/-- One `m |= (m << offset) & e` step keeps the walk inside `e`. -/
theorem stepShl_sub (e off x : Nat)
    (hx : ∀ i, x.testBit i = true → e.testBit i = true) :
    ∀ i, (stepShl e off x).testBit i = true → e.testBit i = true := by
  intro i h
  rw [stepShl, Nat.testBit_lor] at h
  rcases Bool.or_eq_true _ _ |>.mp h with h1 | h2
  · exact hx i h1
  · exact sub_of_land_right _ _ i h2

/-- One `m |= (m >> offset) & e` step keeps the walk inside `e`. -/
theorem stepShr_sub (e off x : Nat)
    (hx : ∀ i, x.testBit i = true → e.testBit i = true) :
    ∀ i, (stepShr e off x).testBit i = true → e.testBit i = true := by
  intro i h
  rw [stepShr, Nat.testBit_lor] at h
  rcases Bool.or_eq_true _ _ |>.mp h with h1 | h2
  · exact hx i h1
  · exact sub_of_land_right _ _ i h2

/-- The five unrolled left-shift steps stay inside `e`. -/
theorem chainShl_sub (e off x : Nat)
    (hx : ∀ i, x.testBit i = true → e.testBit i = true) :
    ∀ i, (stepShl e off (stepShl e off (stepShl e off (stepShl e off
      (stepShl e off x))))).testBit i = true → e.testBit i = true :=
  stepShl_sub e off _ (stepShl_sub e off _ (stepShl_sub e off _
    (stepShl_sub e off _ (stepShl_sub e off _ hx))))

/-- The five unrolled right-shift steps stay inside `e`. -/
theorem chainShr_sub (e off x : Nat)
    (hx : ∀ i, x.testBit i = true → e.testBit i = true) :
    ∀ i, (stepShr e off (stepShr e off (stepShr e off (stepShr e off
      (stepShr e off x))))).testBit i = true → e.testBit i = true :=
  stepShr_sub e off _ (stepShr_sub e off _ (stepShr_sub e off _
    (stepShr_sub e off _ (stepShr_sub e off _ hx))))

/-- Membership in the left component of a conjunction of masks. -/
theorem sub_of_land_left (a e : Nat) :
    ∀ i, (a &&& e).testBit i = true → a.testBit i = true := by
  intro i h
  rw [Nat.testBit_land] at h
  exact (Bool.and_eq_true _ _ |>.mp h).1

/-- Membership in a union splits. -/
theorem lor_sub (a b t : Nat)
    (ha : ∀ i, a.testBit i = true → t.testBit i = true)
    (hb : ∀ i, b.testBit i = true → t.testBit i = true) :
    ∀ i, (a ||| b).testBit i = true → t.testBit i = true := by
  intro i h
  rw [Nat.testBit_lor] at h
  rcases Bool.or_eq_true _ _ |>.mp h with h1 | h2
  · exact ha i h1
  · exact hb i h2

/-- Every disk flipped by the `right_moves` direction is an opponent
disk. -/
theorem flipRight_sub_others (b : Board) (posBit mask off : Nat) :
    ∀ i, (Board.flipRight b posBit mask off).testBit i = true →
      b.others_disks.testBit i = true := by
  intro i h
  simp only [Board.flipRight] at h
  have hm := sub_of_land_left _ _ i h
  have he := chainShl_sub (b.others_disks &&& mask) off
    (u128shl posBit off &&& (b.others_disks &&& mask))
    (sub_of_land_right _ _) i hm
  exact sub_of_land_left _ _ i he

/-- Every disk flipped by the `left_moves` direction is an opponent
disk. -/
theorem flipLeft_sub_others (b : Board) (posBit mask off : Nat) :
    ∀ i, (Board.flipLeft b posBit mask off).testBit i = true →
      b.others_disks.testBit i = true := by
  intro i h
  simp only [Board.flipLeft] at h
  have hm := sub_of_land_left _ _ i h
  have he := chainShr_sub (b.others_disks &&& mask) off
    (u128shr posBit off &&& (b.others_disks &&& mask))
    (sub_of_land_right _ _) i hm
  exact sub_of_land_left _ _ i he

/-- Every disk in the flip set of a move is an opponent disk. -/
theorem flipped_set_unchecked_sub_others (b : Board) (pos : Pos) :
    ∀ i, (b.flipped_set_unchecked pos).testBit i = true →
      b.others_disks.testBit i = true := by
  simp only [Board.flipped_set_unchecked]
  exact lor_sub _ _ _ (lor_sub _ _ _ (lor_sub _ _ _ (lor_sub _ _ _
    (lor_sub _ _ _ (lor_sub _ _ _ (lor_sub _ _ _
      (flipLeft_sub_others b _ _ _) (flipLeft_sub_others b _ _ _))
      (flipLeft_sub_others b _ _ _)) (flipLeft_sub_others b _ _ _))
      (flipRight_sub_others b _ _ _)) (flipRight_sub_others b _ _ _))
      (flipRight_sub_others b _ _ _)) (flipRight_sub_others b _ _ _)

/-- Every position index is below 128 (it is a set bit of
`availableBits`, which fits in 89 bits). -/
theorem pos_idx_lt (p : Pos) : p.idx < 128 := by
  by_contra hlt
  push_neg at hlt
  have hv := p.valid
  have hfalse : availableBits.testBit p.idx = false := by
    apply Nat.testBit_eq_false_of_lt
    calc availableBits < 2 ^ 89 := by decide
    _ ≤ 2 ^ p.idx := Nat.pow_le_pow_right (by norm_num) (by omega)
  rw [hfalse] at hv
  exact Bool.false_ne_true hv

/-- The single-bit mask of a position is its power of two. -/
theorem pos_bit_eq (p : Pos) : p.bit = 2 ^ p.idx := by
  have hlt : (2 : Nat) ^ p.idx < 2 ^ 128 :=
    Nat.pow_lt_pow_right (by norm_num) (pos_idx_lt p)
  rw [Pos.bit, u128shl, Nat.shiftLeft_eq, one_mul, Nat.mod_eq_of_lt hlt]

/-- Membership in a `PosSet` is the bit test at the position's index. -/
theorem contains_eq_testBit (s : Nat) (p : Pos) :
    PosSet.contains s p = s.testBit p.idx := by
  rw [PosSet.contains, pos_bit_eq, Nat.and_two_pow]
  cases hs : s.testBit p.idx <;> simp [hs]

/-- The set of bit indices of a 128-bit word, as a finite set. -/
def bitsF (s : Nat) : Finset ℕ :=
  ⟨((List.range 128).filter (fun i => s.testBit i) : Multiset ℕ),
    Multiset.coe_nodup.mpr ((List.nodup_range 128).filter _)⟩

/-- Membership in `bitsF`. -/
theorem mem_bitsF (s : Nat) (i : ℕ) :
    i ∈ bitsF s ↔ i < 128 ∧ s.testBit i = true := by
  show i ∈ ((List.range 128).filter (fun i => s.testBit i) : Multiset ℕ) ↔ _
  rw [Multiset.mem_coe, List.mem_filter, List.mem_range]

/-- The popcount agrees with the cardinality of the bit set. -/
theorem count_eq_card (s : Nat) : PosSet.count s = (bitsF s).card := rfl

/-- Bit test of a position mask. -/
theorem pos_bit_testBit (p : Pos) (i : Nat) :
    (p.bit).testBit i = decide (p.idx = i) := by
  rw [pos_bit_eq, Nat.testBit_two_pow]

/-- Claim C3 (amended).  Characterization of `Board::flipped` on a board
with disjoint disk sets: the move is rejected exactly when the cell is
occupied or nothing would be captured; otherwise the captured cells are
opponent cells, the mover's disks after the move (the `others_disks` of
the returned board, since the perspective swaps) are the old own disks
plus the captured cells plus the played cell, so the mover's disk count
grows by `flip_count + 1`, while the total number of occupied cells
grows by exactly 1. -/
theorem flipped_move_characterization (b : Board) (pos : Pos)
    (hd : b.mine_disks &&& b.others_disks = 0) :
    (b.flipped pos = none ↔
      (PosSet.contains (b.mine_disks ||| b.others_disks) pos = true ∨
        b.flipped_set_unchecked pos = 0)) ∧
    (∀ b2, b.flipped pos = some b2 →
      ((∀ i, (b.flipped_set_unchecked pos).testBit i = true →
          b.others_disks.testBit i = true) ∧
       b2.mine_disks = b.others_disks ^^^ b.flipped_set_unchecked pos ∧
       b2.others_disks = (b.mine_disks ^^^ b.flipped_set_unchecked pos) ^^^ pos.bit ∧
       (∀ i, b2.mine_disks.testBit i = true ↔
          (b.others_disks.testBit i = true ∧
            (b.flipped_set_unchecked pos).testBit i = false)) ∧
       (∀ i, b2.others_disks.testBit i = true ↔
          (b.mine_disks.testBit i = true ∨
            (b.flipped_set_unchecked pos).testBit i = true ∨ i = pos.idx)) ∧
       PosSet.count b2.others_disks =
         PosSet.count b.mine_disks +
           PosSet.count (b.flipped_set_unchecked pos) + 1 ∧
       b2.count_all_disks = b.count_all_disks + 1)) := by
  refine ⟨Board.flipped_eq_none b pos, ?_⟩
  intro b2 h
  have hsub := flipped_set_unchecked_sub_others b pos
  have hne : b.flipped pos ≠ none := by rw [h]; simp
  have hng := (Board.flipped_eq_none b pos).not.mp hne
  push_neg at hng
  obtain ⟨hcontT, hF⟩ := hng
  have hcont : PosSet.contains (b.mine_disks ||| b.others_disks) pos = false :=
    Bool.not_eq_true _ |>.mp hcontT
  have hb2 : b2 =
      { mine_disks := b.others_disks ^^^ b.flipped_set_unchecked pos
        others_disks := (b.mine_disks ^^^ b.flipped_set_unchecked pos) ^^^ pos.bit } := by
    unfold Board.flipped Board.flipped_set at h
    rw [hcont] at h
    simp only [Bool.false_eq_true, if_false, hF, if_neg hF, Option.map_some] at h
    exact (Option.some.inj h).symm
  subst hb2
  have hdp : ∀ i, ¬(b.mine_disks.testBit i = true ∧ b.others_disks.testBit i = true) := by
    intro i hi
    have hzero := congrArg (fun n => n.testBit i) hd
    simp only [Nat.testBit_land, Nat.zero_testBit] at hzero
    rw [hi.1, hi.2] at hzero
    simp at hzero
  have hpos2 : b.mine_disks.testBit pos.idx = false ∧
      b.others_disks.testBit pos.idx = false := by
    have hc := hcont
    rw [contains_eq_testBit, Nat.testBit_lor] at hc
    exact ⟨(Bool.or_eq_false_iff.mp hc).1, (Bool.or_eq_false_iff.mp hc).2⟩
  have hposF : (b.flipped_set_unchecked pos).testBit pos.idx = false := by
    cases hF2 : (b.flipped_set_unchecked pos).testBit pos.idx with
    | false => rfl
    | true => exact absurd (hsub _ hF2) (by rw [hpos2.2]; simp)
  have hmine2 : ∀ i,
      (b.others_disks ^^^ b.flipped_set_unchecked pos).testBit i = true ↔
        (b.others_disks.testBit i = true ∧
          (b.flipped_set_unchecked pos).testBit i = false) := by
    intro i
    rw [Nat.testBit_xor]
    cases ho : b.others_disks.testBit i with
    | false =>
      cases hFi : (b.flipped_set_unchecked pos).testBit i with
      | false => simp
      | true => exact absurd (hsub i hFi) (by rw [ho]; simp)
    | true => cases hFi : (b.flipped_set_unchecked pos).testBit i <;> simp [hFi]
  have hothers2 : ∀ i,
      ((b.mine_disks ^^^ b.flipped_set_unchecked pos) ^^^ pos.bit).testBit i = true ↔
        (b.mine_disks.testBit i = true ∨
          (b.flipped_set_unchecked pos).testBit i = true ∨ i = pos.idx) := by
    intro i
    rw [Nat.testBit_xor, Nat.testBit_xor, pos_bit_testBit]
    by_cases hip : pos.idx = i
    · subst hip
      rw [hpos2.1, hposF]
      simp
    · have hip2 : ¬(i = pos.idx) := fun hh => hip hh.symm
      simp only [decide_eq_false hip]
      cases hm : b.mine_disks.testBit i with
      | false =>
        cases hFi : (b.flipped_set_unchecked pos).testBit i <;> simp [hip2]
      | true =>
        cases hFi : (b.flipped_set_unchecked pos).testBit i with
        | false => simp [hip2]
        | true => exact absurd ⟨hm, hsub i hFi⟩ (hdp i)
  refine ⟨hsub, rfl, rfl, hmine2, hothers2, ?_, ?_⟩
  · have hset : bitsF ((b.mine_disks ^^^ b.flipped_set_unchecked pos) ^^^ pos.bit) =
        (bitsF b.mine_disks ∪ bitsF (b.flipped_set_unchecked pos)) ∪ {pos.idx} := by
      ext i
      rw [mem_bitsF, Finset.mem_union, Finset.mem_union, Finset.mem_singleton,
        mem_bitsF, mem_bitsF]
      constructor
      · rintro ⟨hlt, hbit⟩
        rcases (hothers2 i).mp hbit with hm | hFi | hip
        · exact Or.inl (Or.inl ⟨hlt, hm⟩)
        · exact Or.inl (Or.inr ⟨hlt, hFi⟩)
        · exact Or.inr hip
      · rintro ((⟨hlt, hm⟩ | ⟨hlt, hFi⟩) | hip)
        · exact ⟨hlt, (hothers2 i).mpr (Or.inl hm)⟩
        · exact ⟨hlt, (hothers2 i).mpr (Or.inr (Or.inl hFi))⟩
        · subst hip
          exact ⟨pos_idx_lt pos, (hothers2 pos.idx).mpr (Or.inr (Or.inr rfl))⟩
    have hdisj1 : Disjoint (bitsF b.mine_disks) (bitsF (b.flipped_set_unchecked pos)) := by
      rw [Finset.disjoint_left]
      intro i hi1 hi2
      rw [mem_bitsF] at hi1 hi2
      exact hdp i ⟨hi1.2, hsub i hi2.2⟩
    have hdisj2 : Disjoint (bitsF b.mine_disks ∪ bitsF (b.flipped_set_unchecked pos))
        ({pos.idx} : Finset ℕ) := by
      rw [Finset.disjoint_right]
      intro i hi1 hi2
      rw [Finset.mem_singleton] at hi1
      subst hi1
      rcases Finset.mem_union.mp hi2 with hi | hi <;> rw [mem_bitsF] at hi
      · rw [hpos2.1] at hi; exact Bool.false_ne_true hi.2
      · rw [hposF] at hi; exact Bool.false_ne_true hi.2
    rw [count_eq_card, count_eq_card, count_eq_card, hset,
      Finset.card_union_of_disjoint hdisj2, Finset.card_union_of_disjoint hdisj1,
      Finset.card_singleton]
  · have hmset : bitsF (b.others_disks ^^^ b.flipped_set_unchecked pos) =
        bitsF b.others_disks \ bitsF (b.flipped_set_unchecked pos) := by
      ext i
      rw [mem_bitsF, Finset.mem_sdiff, mem_bitsF, mem_bitsF]
      constructor
      · rintro ⟨hlt, hbit⟩
        rcases (hmine2 i).mp hbit with ⟨ho, hFi⟩
        exact ⟨⟨hlt, ho⟩, fun hc => by rw [hFi] at hc; exact Bool.false_ne_true hc.2⟩
      · rintro ⟨⟨hlt, ho⟩, hnc⟩
        refine ⟨hlt, (hmine2 i).mpr ⟨ho, ?_⟩⟩
        cases hFi : (b.flipped_set_unchecked pos).testBit i with
        | false => rfl
        | true => exact absurd ⟨hlt, hFi⟩ hnc
    have hFsub : bitsF (b.flipped_set_unchecked pos) ⊆ bitsF b.others_disks := by
      intro i hi
      rw [mem_bitsF] at hi ⊢
      exact ⟨hi.1, hsub i hi.2⟩
    have hset : bitsF ((b.mine_disks ^^^ b.flipped_set_unchecked pos) ^^^ pos.bit) =
        (bitsF b.mine_disks ∪ bitsF (b.flipped_set_unchecked pos)) ∪ {pos.idx} := by
      ext i
      rw [mem_bitsF, Finset.mem_union, Finset.mem_union, Finset.mem_singleton,
        mem_bitsF, mem_bitsF]
      constructor
      · rintro ⟨hlt, hbit⟩
        rcases (hothers2 i).mp hbit with hm | hFi | hip
        · exact Or.inl (Or.inl ⟨hlt, hm⟩)
        · exact Or.inl (Or.inr ⟨hlt, hFi⟩)
        · exact Or.inr hip
      · rintro ((⟨hlt, hm⟩ | ⟨hlt, hFi⟩) | hip)
        · exact ⟨hlt, (hothers2 i).mpr (Or.inl hm)⟩
        · exact ⟨hlt, (hothers2 i).mpr (Or.inr (Or.inl hFi))⟩
        · subst hip
          exact ⟨pos_idx_lt pos, (hothers2 pos.idx).mpr (Or.inr (Or.inr rfl))⟩
    have hdisj1 : Disjoint (bitsF b.mine_disks) (bitsF (b.flipped_set_unchecked pos)) := by
      rw [Finset.disjoint_left]
      intro i hi1 hi2
      rw [mem_bitsF] at hi1 hi2
      exact hdp i ⟨hi1.2, hsub i hi2.2⟩
    have hdisj2 : Disjoint (bitsF b.mine_disks ∪ bitsF (b.flipped_set_unchecked pos))
        ({pos.idx} : Finset ℕ) := by
      rw [Finset.disjoint_right]
      intro i hi1 hi2
      rw [Finset.mem_singleton] at hi1
      subst hi1
      rcases Finset.mem_union.mp hi2 with hi | hi <;> rw [mem_bitsF] at hi
      · rw [hpos2.1] at hi; exact Bool.false_ne_true hi.2
      · rw [hposF] at hi; exact Bool.false_ne_true hi.2
    have hcardF := Finset.card_le_card hFsub
    unfold Board.count_all_disks
    simp only [count_eq_card, hmset, hset,
      Finset.card_union_of_disjoint hdisj2, Finset.card_union_of_disjoint hdisj1,
      Finset.card_singleton, Finset.card_sdiff hFsub]
    omega

/-- Witness for `flipped_move_characterization`, at the opening board. -/
theorem flipped_move_characterization_witness :
    Board.new.mine_disks &&& Board.new.others_disks = 0 ∧
    ((Board.new.flipped Pos.D3 = none ↔
      (PosSet.contains (Board.new.mine_disks ||| Board.new.others_disks) Pos.D3 = true ∨
        Board.new.flipped_set_unchecked Pos.D3 = 0)) ∧
    (∀ b2, Board.new.flipped Pos.D3 = some b2 →
      ((∀ i, (Board.new.flipped_set_unchecked Pos.D3).testBit i = true →
          Board.new.others_disks.testBit i = true) ∧
       b2.mine_disks = Board.new.others_disks ^^^ Board.new.flipped_set_unchecked Pos.D3 ∧
       b2.others_disks = (Board.new.mine_disks ^^^ Board.new.flipped_set_unchecked Pos.D3) ^^^ Pos.D3.bit ∧
       (∀ i, b2.mine_disks.testBit i = true ↔
          (Board.new.others_disks.testBit i = true ∧
            (Board.new.flipped_set_unchecked Pos.D3).testBit i = false)) ∧
       (∀ i, b2.others_disks.testBit i = true ↔
          (Board.new.mine_disks.testBit i = true ∨
            (Board.new.flipped_set_unchecked Pos.D3).testBit i = true ∨ i = Pos.D3.idx)) ∧
       PosSet.count b2.others_disks =
         PosSet.count Board.new.mine_disks +
           PosSet.count (Board.new.flipped_set_unchecked Pos.D3) + 1 ∧
       b2.count_all_disks = Board.new.count_all_disks + 1))) :=
  ⟨by decide, flipped_move_characterization Board.new Pos.D3 (by decide)⟩

/-- The base-3 digit of one cell (0 = empty, 1 = mine, 2 = others), as
used by `Board::pattern_index`. -/
def Board.cell_digit (b : Board) (p : Pos) : Nat :=
  match b.get_disk p with
  | none => 0
  | some Disk.Mine => 1
  | some Disk.Others => 2

/-- Accumulator loop of `Board::pattern_index`: `n += bit * digit;
bit *= 3;` in `u16` arithmetic (each operation wraps modulo 2^16). -/
def Board.pattern_index_aux (b : Board) : List Pos → Nat → Nat → Nat
  | [], n, _ => n
  | p :: rest, n, bit =>
    Board.pattern_index_aux b rest ((n + bit * b.cell_digit p) % 65536)
      ((bit * 3) % 65536)

/-- Base-3 little-endian encoding of the board restricted to the cells
of a pattern (`Board::pattern_index`), in `u16` arithmetic. -/
def Board.pattern_index (b : Board) (pattern : List Pos) : Nat :=
  Board.pattern_index_aux b pattern 0 1

/-- Decoding loop of `Board::from_pattern_index`: set each cell from the
next base-3 digit and stop early once the remaining index is zero. -/
def Board.from_pattern_index_aux : List Pos → Nat → Board → Board
  | [], _, board => board
  | p :: rest, n, board =>
    let board2 :=
      match n % 3 with
      | 0 => board
      | 1 => board.set_disk p Disk.Mine
      | _ => board.set_disk p Disk.Others
    let n2 := n / 3
    if n2 = 0 then board2 else Board.from_pattern_index_aux rest n2 board2

/-- Decode a pattern index into a board (`Board::from_pattern_index`),
starting from the empty board. -/
def Board.from_pattern_index (pattern : List Pos) (index : Nat) : Board :=
  Board.from_pattern_index_aux pattern index Board.empty

/-- An 11-cell pattern (column A plus B1, B2, B3). -/
def elevenPattern : List Pos :=
  [Pos.A1, Pos.A2, Pos.A3, Pos.A4, Pos.A5, Pos.A6, Pos.A7, Pos.A8,
   Pos.B1, Pos.B2, Pos.B3]

/-- The board holding an opponent disk on every cell of `elevenPattern`. -/
def elevenBoard : Board :=
  elevenPattern.foldl (fun b p => b.set_disk p Disk.Others) Board.empty

/-- Claim C6, counterexample.  For the 11-cell pattern of distinct
positions `elevenPattern`, the `u16` encoding wraps (the full index
would be 3^11 - 1 = 177146, but `pattern_index` returns 177146 mod
2^16 = 46074), so the round trip fails: cell A1 carries an opponent disk
on the original board but decodes to an empty cell. -/
theorem pattern_index_roundtrip_counterexample :
    elevenPattern.Nodup ∧
    Board.pattern_index elevenBoard elevenPattern = 46074 ∧
    elevenBoard.get_disk Pos.A1 = some Disk.Others ∧
    (Board.from_pattern_index elevenPattern
        (Board.pattern_index elevenBoard elevenPattern)).get_disk Pos.A1 = none ∧
    (some Disk.Others ≠ (none : Option Disk)) := by
  refine ⟨by decide, by decide, by decide, by decide, by decide⟩

/-- Positions with equal bit index are equal. -/
theorem pos_eq_of_idx_eq (p q : Pos) (h : p.idx = q.idx) : p = q := by
  cases p
  cases q
  simp only at h
  subst h
  rfl

/-- The empty board has no disk anywhere. -/
theorem get_disk_empty (p : Pos) : Board.empty.get_disk p = none := by
  simp [Board.empty, Board.get_disk, PosSet.contains, Nat.zero_and]

/-- Reading back the cell just written by `set_disk`. -/
theorem get_set_disk_self (board : Board) (q : Pos) (d : Disk) :
    (board.set_disk q d).get_disk q = some d := by
  have havail : availableBits.testBit q.idx = true := q.valid
  have hbit : (q.bit).testBit q.idx = true := by
    rw [pos_bit_testBit]; simp
  cases d with
  | Mine =>
    simp [Board.set_disk, Board.get_disk, contains_eq_testBit, Nat.testBit_lor, hbit]
  | Others =>
    simp [Board.set_disk, Board.get_disk, contains_eq_testBit, Nat.testBit_lor,
      Nat.testBit_land, PosSet.compl, Nat.testBit_xor, hbit, havail]

/-- `set_disk` leaves every other cell unchanged. -/
theorem get_set_disk_other (board : Board) (q : Pos) (d : Disk) (p : Pos)
    (h : p ≠ q) : (board.set_disk q d).get_disk p = board.get_disk p := by
  have havail : availableBits.testBit p.idx = true := p.valid
  have hbit : (q.bit).testBit p.idx = false := by
    rw [pos_bit_testBit]
    simp only [decide_eq_false_iff_not]
    intro hqp
    exact h (pos_eq_of_idx_eq p q hqp.symm)
  cases d with
  | Mine =>
    simp [Board.set_disk, Board.get_disk, contains_eq_testBit, Nat.testBit_lor,
      Nat.testBit_land, PosSet.compl, Nat.testBit_xor, hbit, havail]
  | Others =>
    simp [Board.set_disk, Board.get_disk, contains_eq_testBit, Nat.testBit_lor,
      Nat.testBit_land, PosSet.compl, Nat.testBit_xor, hbit, havail]

/-- The unwrapped base-3 value of a board on a pattern. -/
def Board.pattern_value (b : Board) : List Pos → Nat
  | [] => 0
  | p :: rest => b.cell_digit p + 3 * Board.pattern_value b rest

/-- Cell digits are at most 2. -/
theorem cell_digit_le (b : Board) (p : Pos) : b.cell_digit p ≤ 2 := by
  rcases h : b.get_disk p with _ | d
  · simp [Board.cell_digit, h]
  · cases d <;> simp [Board.cell_digit, h]

/-- The pattern value is below the capacity of the pattern. -/
theorem pattern_value_lt (b : Board) (l : List Pos) :
    Board.pattern_value b l < 3 ^ l.length := by
  induction l with
  | nil => simp [Board.pattern_value]
  | cons p rest ih =>
    have hd := cell_digit_le b p
    simp only [Board.pattern_value, List.length_cons, pow_succ]
    omega

/-- In-range runs of the `u16` accumulator loop compute the exact
base-3 value. -/
theorem pattern_index_aux_eq (b : Board) : ∀ (l : List Pos) (n bit : Nat),
    n + bit * (3 ^ l.length - 1) < 65536 →
    Board.pattern_index_aux b l n bit = n + bit * Board.pattern_value b l := by
  intro l
  induction l with
  | nil => intro n bit _; simp [Board.pattern_index_aux, Board.pattern_value]
  | cons p rest ih =>
    intro n bit h
    have hd := cell_digit_le b p
    have hA : 1 ≤ 3 ^ rest.length := Nat.one_le_pow _ _ (by norm_num)
    have hcap : 3 ^ (p :: rest).length = 3 * 3 ^ rest.length := by
      simp [List.length_cons, pow_succ, Nat.mul_comm]
    rw [hcap] at h
    have hdle : bit * b.cell_digit p ≤ bit * (3 * 3 ^ rest.length - 1) :=
      Nat.mul_le_mul_left bit (by omega)
    have h1 : n + bit * b.cell_digit p < 65536 := by omega
    rw [Board.pattern_index_aux, Nat.mod_eq_of_lt h1]
    cases rest with
    | nil =>
      simp [Board.pattern_index_aux, Board.pattern_value]
    | cons q qs =>
      have hA3 : 3 ≤ 3 ^ (q :: qs).length := by
        calc (3:Nat) = 3 ^ 1 := by norm_num
        _ ≤ 3 ^ (q :: qs).length := Nat.pow_le_pow_right (by norm_num) (by simp)
      have hb3 : bit * 3 ≤ bit * (3 * 3 ^ (q :: qs).length - 1) :=
        Nat.mul_le_mul_left bit (by omega)
      have h2 : bit * 3 < 65536 := by omega
      rw [Nat.mod_eq_of_lt h2]
      have e1 : 3 * (3 ^ (q :: qs).length - 1) = 3 * 3 ^ (q :: qs).length - 3 := by
        omega
      have e2 : bit * 3 * (3 ^ (q :: qs).length - 1) =
          bit * (3 * 3 ^ (q :: qs).length - 3) := by
        rw [Nat.mul_assoc, e1]
      have e3 : bit * b.cell_digit p + bit * (3 * 3 ^ (q :: qs).length - 3) =
          bit * (b.cell_digit p + (3 * 3 ^ (q :: qs).length - 3)) :=
        (Nat.mul_add bit _ _).symm
      have e4 : bit * (b.cell_digit p + (3 * 3 ^ (q :: qs).length - 3)) ≤
          bit * (3 * 3 ^ (q :: qs).length - 1) :=
        Nat.mul_le_mul_left bit (by omega)
      have hbound : n + bit * b.cell_digit p +
          bit * 3 * (3 ^ (q :: qs).length - 1) < 65536 := by
        rw [e2]
        omega
      rw [ih _ _ hbound]
      simp only [Board.pattern_value]
      ring

/-- A zero pattern value means every pattern cell is empty. -/
theorem pattern_value_zero (b : Board) : ∀ l : List Pos,
    Board.pattern_value b l = 0 → ∀ p, p ∈ l → b.get_disk p = none := by
  intro l
  induction l with
  | nil => intro _ p hp; simp at hp
  | cons q rest ih =>
    intro h p hp
    simp only [Board.pattern_value] at h
    have hdz : b.cell_digit q = 0 := by omega
    have hvz : Board.pattern_value b rest = 0 := by omega
    rcases List.mem_cons.mp hp with hpq | hpr
    · subst hpq
      rcases hgd : b.get_disk p with _ | dk
      · rfl
      · rw [Board.cell_digit, hgd] at hdz
        cases dk <;> simp at hdz
    · exact ih hvz p hpr

/-- Running the decode loop on the exact pattern value of a board
reproduces that board on the pattern cells and leaves the accumulator
elsewhere. -/
theorem from_aux_value (b : Board) : ∀ l : List Pos, l.Nodup →
    ∀ board : Board, (∀ q, q ∈ l → board.get_disk q = none) →
    ∀ p, (Board.from_pattern_index_aux l (Board.pattern_value b l) board).get_disk p =
      if p ∈ l then b.get_disk p else board.get_disk p := by
  intro l
  induction l with
  | nil =>
    intro _ board _ p
    simp [Board.from_pattern_index_aux]
  | cons q rest ih =>
    intro hnd board hclear p
    have hqr : q ∉ rest := (List.nodup_cons.mp hnd).1
    have hndr : rest.Nodup := (List.nodup_cons.mp hnd).2
    have hd := cell_digit_le b q
    have hmod : (b.cell_digit q + 3 * Board.pattern_value b rest) % 3 =
        b.cell_digit q := by
      rw [Nat.add_mul_mod_self_left]
      exact Nat.mod_eq_of_lt (by omega)
    have hdiv : (b.cell_digit q + 3 * Board.pattern_value b rest) / 3 =
        Board.pattern_value b rest := by
      rw [Nat.add_mul_div_left _ _ (by norm_num : (0:Nat) < 3)]
      have hq3 : b.cell_digit q / 3 = 0 := Nat.div_eq_of_lt (by omega)
      omega
    simp only [Board.pattern_value, Board.from_pattern_index_aux, hmod, hdiv]
    rcases hgd : b.get_disk q with _ | dk
    · have hset : (match b.cell_digit q with
          | 0 => board
          | 1 => board.set_disk q Disk.Mine
          | _ => board.set_disk q Disk.Others) = board := by
        simp [Board.cell_digit, hgd]
      rw [hset]
      by_cases hv : Board.pattern_value b rest = 0
      · rw [if_pos hv]
        by_cases hpq : p = q
        · subst hpq
          rw [hclear p (List.mem_cons_self _ _), if_pos (List.mem_cons_self _ _), hgd]
        · by_cases hpr : p ∈ rest
          · rw [hclear p (List.mem_cons_of_mem _ hpr),
              if_pos (List.mem_cons_of_mem _ hpr),
              pattern_value_zero b rest hv p hpr]
          · rw [if_neg (by simp [List.mem_cons, hpq, hpr])]
      · rw [if_neg hv]
        rw [ih hndr board (fun r hr => hclear r (List.mem_cons_of_mem _ hr)) p]
        by_cases hpq : p = q
        · subst hpq
          rw [if_neg hqr, if_pos (List.mem_cons_self _ _),
            hclear p (List.mem_cons_self _ _), hgd]
        · by_cases hpr : p ∈ rest
          · rw [if_pos hpr, if_pos (List.mem_cons_of_mem _ hpr)]
          · rw [if_neg hpr, if_neg (by simp [List.mem_cons, hpq, hpr])]
    · have hset : (match b.cell_digit q with
          | 0 => board
          | 1 => board.set_disk q Disk.Mine
          | _ => board.set_disk q Disk.Others) = board.set_disk q dk := by
        cases dk with
        | Mine => simp [Board.cell_digit, hgd]
        | Others => simp [Board.cell_digit, hgd]
      rw [hset]
      have hclear2 : ∀ r, r ∈ rest → (board.set_disk q dk).get_disk r = none := by
        intro r hr
        rw [get_set_disk_other board q dk r (fun hrq => hqr (hrq ▸ hr))]
        exact hclear r (List.mem_cons_of_mem _ hr)
      by_cases hv : Board.pattern_value b rest = 0
      · rw [if_pos hv]
        by_cases hpq : p = q
        · subst hpq
          rw [get_set_disk_self, if_pos (List.mem_cons_self _ _), hgd]
        · by_cases hpr : p ∈ rest
          · rw [get_set_disk_other board q dk p hpq,
              hclear p (List.mem_cons_of_mem _ hpr),
              if_pos (List.mem_cons_of_mem _ hpr),
              pattern_value_zero b rest hv p hpr]
          · rw [get_set_disk_other board q dk p hpq,
              if_neg (by simp [List.mem_cons, hpq, hpr])]
      · rw [if_neg hv]
        rw [ih hndr (board.set_disk q dk) hclear2 p]
        by_cases hpq : p = q
        · subst hpq
          rw [if_neg hqr, get_set_disk_self,
            if_pos (List.mem_cons_self _ _), hgd]
        · by_cases hpr : p ∈ rest
          · rw [if_pos hpr, if_pos (List.mem_cons_of_mem _ hpr)]
          · rw [if_neg hpr, get_set_disk_other board q dk p hpq,
              if_neg (by simp [List.mem_cons, hpq, hpr])]

/-- Claim C6 (amended).  For every pattern of at most 10 distinct
positions (so that the base-3 index fits a `u16`) and every board,
decoding the pattern index reproduces the board restricted to the
pattern cells: pattern cells read back identically, all other cells are
empty. -/
theorem pattern_index_roundtrip (pattern : List Pos) (hnd : pattern.Nodup)
    (hlen : pattern.length ≤ 10) (b : Board) :
    ∀ p : Pos, (Board.from_pattern_index pattern
        (Board.pattern_index b pattern)).get_disk p =
      if p ∈ pattern then b.get_disk p else none := by
  intro p
  have hval : Board.pattern_index b pattern = Board.pattern_value b pattern := by
    rw [Board.pattern_index]
    rw [pattern_index_aux_eq b pattern 0 1 ?_]
    · rw [Nat.zero_add, Nat.one_mul]
    · have h1 : (3:Nat) ^ pattern.length ≤ 3 ^ 10 :=
        Nat.pow_le_pow_right (by norm_num) hlen
      have h2 : (3:Nat) ^ 10 = 59049 := by norm_num
      omega
  rw [Board.from_pattern_index, hval,
    from_aux_value b pattern hnd Board.empty (fun q _ => get_disk_empty q) p,
    get_disk_empty p]

/-- Witness for `pattern_index_roundtrip`, on a two-cell pattern over
the opening board. -/
theorem pattern_index_roundtrip_witness :
    ([Pos.D4, Pos.E4].Nodup ∧ ([Pos.D4, Pos.E4] : List Pos).length ≤ 10) ∧
    ∀ p : Pos, (Board.from_pattern_index [Pos.D4, Pos.E4]
        (Board.pattern_index Board.new [Pos.D4, Pos.E4])).get_disk p =
      if p ∈ [Pos.D4, Pos.E4] then Board.new.get_disk p else none :=
  ⟨⟨by decide, by decide⟩,
    pattern_index_roundtrip [Pos.D4, Pos.E4] (by decide) (by decide) Board.new⟩

/-- Value of one disk for the evaluators (`DISK_VALUE`). -/
def DISK_VALUE : Int := 1000

/-- Clamping bound of the learned weights (`MAX_PATTERN_VALUE =
DISK_VALUE * 20`). -/
def MAX_PATTERN_VALUE : Int := DISK_VALUE * 20

/-- Flush frequency threshold (`FREQ_THRESHOLD`). -/
def FREQ_THRESHOLD : Nat := 10

/-- One weight adjustment (`update_value`).  The `f64` scaling step
`((diff_sum / count) as f64 * UPDATE_RATIO) as i32` is abstracted by the
integer function `fstep` (every theorem below holds for an arbitrary
`fstep`, hence in particular for the floating-point computation); the
`i32` division truncates toward zero (`Int.tdiv`), and the result is
clamped to `[-MAX_PATTERN_VALUE, MAX_PATTERN_VALUE]`. -/
def update_value (fstep : Int → Int) (value : Int) (count : Nat)
    (diff_sum : Int) : Int :=
  let updated := value + fstep (Int.tdiv diff_sum (count : Int))
  max (-MAX_PATTERN_VALUE) (min updated MAX_PATTERN_VALUE)

/-- Modelled from the spec: one entry of the pattern module that
`build.rs` generates into `OUT_DIR/pattern.rs` (not part of the given
sources): the orbit-representative instances of one declared pattern
(`PATTERNS`), its raw-index-to-weight-slot map (`PATTERN_TO_WEIGHT_MAP`)
and the slot range it occupies in the flat weight array
(`WEIGHT_INDEX_OFFSET`, `WEIGHT_COUNT`). -/
structure PatternDef where
  instances : List (List Pos)
  toWeight : Nat → Nat
  offset : Nat
  wcount : Nat

/-- The weight store (`Weight`): a flat array of pattern weights plus a
2-entry parity partition, both embedded as total functions. -/
structure Weight where
  pattern : Nat → Int
  parity : Nat → Int

/-- The all-zero weight store (`Weight::default`). -/
def Weight.default : Weight :=
  { pattern := fun _ => 0, parity := fun _ => 0 }

/-- Parity slot of a board (`board_parity_index`): the number of empty
cells modulo 2. -/
def board_parity_index (b : Board) : Nat := b.count_disk none % 2

/-- The weighted evaluator's non-terminal value
(`WeightEvaluator::compute_value`): the sum over every declared pattern
and every orbit instance of the weight in the canonical slot of the
instance's pattern index, plus the parity weight. -/
def compute_value (table : List PatternDef) (w : Weight) (b : Board) : Int :=
  (table.map (fun pd =>
    (pd.instances.map (fun inst =>
      w.pattern (pd.offset + pd.toWeight (b.pattern_index inst)))).sum)).sum +
    w.parity (board_parity_index b)

/-- The weight trainer state (`WeightUpdater`): the evaluator's weights
plus per-slot accumulation counters and signed difference sums.  The
`u8` counters are embedded as unbounded `Nat` so that the 255 capacity
bound can be stated about them. -/
structure WeightUpdater where
  weight : Weight
  pattern_count : Nat → Nat
  pattern_sum : Nat → Int
  parity_count : Nat → Nat
  parity_sum : Nat → Int

/-- A fresh trainer with zeroed accumulators (`WeightUpdater::new`). -/
def WeightUpdater.new (w : Weight) : WeightUpdater :=
  { weight := w, pattern_count := fun _ => 0, pattern_sum := fun _ => 0,
    parity_count := fun _ => 0, parity_sum := fun _ => 0 }

/-- Point update of a counter array. -/
def bumpCount (f : Nat → Nat) (i : Nat) : Nat → Nat :=
  fun j => if j = i then f i + 1 else f j

/-- Point update of a sum array. -/
def bumpSum (f : Nat → Int) (i : Nat) (d : Int) : Nat → Int :=
  fun j => if j = i then f i + d else f j

/-- One training observation (`WeightUpdater::update`): compute `diff =
value - compute_value(board)`, then for every pattern instance increment
the matched slot's counter and add `diff` to its sum, and finally do the
same for the board's parity slot.  The weights themselves are not
touched. -/
def WeightUpdater.update (table : List PatternDef) (u : WeightUpdater)
    (b : Board) (value : Int) : WeightUpdater :=
  let diff := value - compute_value table u.weight b
  let u2 := table.foldl (fun acc pd =>
    pd.instances.foldl (fun acc2 inst =>
      let i := pd.offset + pd.toWeight (b.pattern_index inst)
      { acc2 with pattern_count := bumpCount acc2.pattern_count i,
                  pattern_sum := bumpSum acc2.pattern_sum i diff }) acc) u
  let pi2 := board_parity_index b
  { u2 with parity_count := bumpCount u2.parity_count pi2,
            parity_sum := bumpSum u2.parity_sum pi2 diff }

/-- Batch flush (`WeightUpdater::flush`): every slot whose counter
exceeds `FREQ_THRESHOLD` gets its weight moved by `update_value` and its
counter and sum reset to zero; all other slots are untouched. -/
def WeightUpdater.flush (fstep : Int → Int) (u : WeightUpdater) : WeightUpdater :=
  { weight :=
      { pattern := fun i =>
          if u.pattern_count i > FREQ_THRESHOLD then
            update_value fstep (u.weight.pattern i) (u.pattern_count i)
              (u.pattern_sum i)
          else u.weight.pattern i
        parity := fun i =>
          if u.parity_count i > FREQ_THRESHOLD then
            update_value fstep (u.weight.parity i) (u.parity_count i)
              (u.parity_sum i)
          else u.weight.parity i }
    pattern_count := fun i =>
      if u.pattern_count i > FREQ_THRESHOLD then 0 else u.pattern_count i
    pattern_sum := fun i =>
      if u.pattern_count i > FREQ_THRESHOLD then 0 else u.pattern_sum i
    parity_count := fun i =>
      if u.parity_count i > FREQ_THRESHOLD then 0 else u.parity_count i
    parity_sum := fun i =>
      if u.parity_count i > FREQ_THRESHOLD then 0 else u.parity_sum i }

/-- One call of the trainer interface: an `update` with some board and
target value, or a `flush`. -/
inductive WeightOp where
  | update (b : Board) (value : Int)
  | flush

/-- Apply one trainer call. -/
def applyWeightOp (table : List PatternDef) (fstep : Int → Int)
    (u : WeightUpdater) (op : WeightOp) : WeightUpdater :=
  match op with
  | WeightOp.update b v => WeightUpdater.update table u b v
  | WeightOp.flush => WeightUpdater.flush fstep u

/-- Apply a sequence of trainer calls in order. -/
def applyWeightOps (table : List PatternDef) (fstep : Int → Int)
    (u : WeightUpdater) (ops : List WeightOp) : WeightUpdater :=
  ops.foldl (applyWeightOp table fstep) u

/-- The clamp in `update_value` keeps every result within the weight
range. -/
theorem update_value_bounded (fstep : Int → Int) (value : Int) (count : Nat)
    (diff_sum : Int) :
    -MAX_PATTERN_VALUE ≤ update_value fstep value count diff_sum ∧
      update_value fstep value count diff_sum ≤ MAX_PATTERN_VALUE := by
  simp only [update_value]
  constructor
  · exact le_max_left _ _
  · exact max_le (by norm_num [MAX_PATTERN_VALUE, DISK_VALUE]) (min_le_right _ _)

/-- The inner per-pattern accumulation loop of `update` never touches
the weights. -/
theorem update_foldl_weight (u : WeightUpdater) (table : List PatternDef)
    (f : WeightUpdater → PatternDef → WeightUpdater)
    (hf : ∀ a pd, (f a pd).weight = a.weight) :
    (table.foldl f u).weight = u.weight := by
  induction table generalizing u with
  | nil => rfl
  | cons pd rest ih => rw [List.foldl_cons, ih (f u pd)]; exact hf u pd

/-- The instance-level loop preserves weights. -/
theorem update_inner_weight (acc : WeightUpdater) (l : List (List Pos))
    (g : WeightUpdater → List Pos → WeightUpdater)
    (hg : ∀ a inst, (g a inst).weight = a.weight) :
    (l.foldl g acc).weight = acc.weight := by
  induction l generalizing acc with
  | nil => rfl
  | cons inst rest ih => rw [List.foldl_cons, ih (g acc inst)]; exact hg acc inst

/-- `update` never changes the weight store. -/
theorem update_preserves_weight (table : List PatternDef) (u : WeightUpdater)
    (b : Board) (value : Int) :
    (WeightUpdater.update table u b value).weight = u.weight := by
  unfold WeightUpdater.update
  exact update_foldl_weight u table _
    (fun a pd => update_inner_weight a pd.instances _ (fun a2 inst => rfl))

/-- The inner loops of `update` never touch the parity counters. -/
theorem update_foldl_parity_count (u : WeightUpdater) (table : List PatternDef)
    (f : WeightUpdater → PatternDef → WeightUpdater)
    (hf : ∀ a pd, (f a pd).parity_count = a.parity_count) :
    (table.foldl f u).parity_count = u.parity_count := by
  induction table generalizing u with
  | nil => rfl
  | cons pd rest ih => rw [List.foldl_cons, ih (f u pd)]; exact hf u pd

/-- The instance-level loop preserves the parity counters. -/
theorem update_inner_parity_count (acc : WeightUpdater) (l : List (List Pos))
    (g : WeightUpdater → List Pos → WeightUpdater)
    (hg : ∀ a inst, (g a inst).parity_count = a.parity_count) :
    (l.foldl g acc).parity_count = acc.parity_count := by
  induction l generalizing acc with
  | nil => rfl
  | cons inst rest ih => rw [List.foldl_cons, ih (g acc inst)]; exact hg acc inst

/-- Each `update` call increments the counter of the board's parity slot
by exactly one. -/
theorem update_parity_count_incr (table : List PatternDef) (u : WeightUpdater)
    (b : Board) (value : Int) :
    (WeightUpdater.update table u b value).parity_count (board_parity_index b) =
      u.parity_count (board_parity_index b) + 1 := by
  unfold WeightUpdater.update
  have hfold : (table.foldl (fun acc pd =>
      pd.instances.foldl (fun acc2 inst =>
        { acc2 with
          pattern_count := bumpCount acc2.pattern_count
            (pd.offset + pd.toWeight (b.pattern_index inst)),
          pattern_sum := bumpSum acc2.pattern_sum
            (pd.offset + pd.toWeight (b.pattern_index inst))
            (value - compute_value table u.weight b) }) acc) u).parity_count =
      u.parity_count := by
    refine update_foldl_parity_count u table _ ?_
    intro a pd
    exact update_inner_parity_count a pd.instances _ (fun a2 inst => rfl)
  show bumpCount _ (board_parity_index b) (board_parity_index b) = _
  rw [hfold]
  simp [bumpCount]

/-- Repeated `update` calls on one board accumulate the parity counter
linearly. -/
theorem replicate_update_parity (table : List PatternDef) (fstep : Int → Int)
    (b : Board) (value : Int) : ∀ (n : Nat) (u : WeightUpdater),
    (applyWeightOps table fstep u
        (List.replicate n (WeightOp.update b value))).parity_count
      (board_parity_index b) = u.parity_count (board_parity_index b) + n := by
  intro n
  induction n with
  | zero => intro u; rfl
  | succ m ih =>
    intro u
    rw [List.replicate_succ, applyWeightOps, List.foldl_cons]
    show (applyWeightOps table fstep _ (List.replicate m _)).parity_count _ = _
    rw [ih, applyWeightOp, update_parity_count_incr]
    omega

/-- Claim C9.  The per-slot accumulation counters are `u8` in the
sources and are incremented without any overflow guard: 256 consecutive
`update` calls on the same board with no interleaved `flush` drive the
board's parity counter to 256, which exceeds `u8::MAX = 255`, so the
256th increment overflows (panic in debug builds, silent wrap-around in
release builds).  The counters are embedded as unbounded `Nat` here in
order to state the bound. -/
theorem update_counter_exceeds_u8 (table : List PatternDef) (fstep : Int → Int) :
    (applyWeightOps table fstep (WeightUpdater.new Weight.default)
        (List.replicate 256 (WeightOp.update Board.new 0))).parity_count
      (board_parity_index Board.new) = 256 ∧ 255 < 256 := by
  constructor
  · rw [replicate_update_parity]
    rfl
  · norm_num

/-- Bound preservation of one `flush` step. -/
theorem flush_weight_bound (fstep : Int → Int) (u : WeightUpdater)
    (h : ∀ i, (-MAX_PATTERN_VALUE ≤ u.weight.pattern i ∧
          u.weight.pattern i ≤ MAX_PATTERN_VALUE) ∧
        (-MAX_PATTERN_VALUE ≤ u.weight.parity i ∧
          u.weight.parity i ≤ MAX_PATTERN_VALUE)) :
    ∀ i, (-MAX_PATTERN_VALUE ≤ (u.flush fstep).weight.pattern i ∧
        (u.flush fstep).weight.pattern i ≤ MAX_PATTERN_VALUE) ∧
      (-MAX_PATTERN_VALUE ≤ (u.flush fstep).weight.parity i ∧
        (u.flush fstep).weight.parity i ≤ MAX_PATTERN_VALUE) := by
  intro i
  unfold WeightUpdater.flush
  constructor
  · by_cases hc : u.pattern_count i > FREQ_THRESHOLD
    · simp only [hc, if_pos]
      exact update_value_bounded fstep _ _ _
    · simp only [hc, if_neg, if_false]
      exact (h i).1
  · by_cases hc : u.parity_count i > FREQ_THRESHOLD
    · simp only [hc, if_pos]
      exact update_value_bounded fstep _ _ _
    · simp only [hc, if_neg, if_false]
      exact (h i).2

/-- Claim C7.  For every sequence of `update`/`flush` calls starting
from a weight store bounded by `±(DISK_VALUE * 20)`, every weight entry
(pattern and parity) stays within `±(DISK_VALUE * 20)` after each call,
for arbitrarily many and arbitrarily large updates (the bound holds for
every abstracted float step `fstep`); moreover a slot's weight changes
only at a `flush` whose accumulated count exceeds `FREQ_THRESHOLD`
(`update` never writes the weights, and `flush` leaves slots at or below
the threshold untouched), and flushed slots get their count and sum
reset to zero. -/
theorem weight_store_invariant (table : List PatternDef) (fstep : Int → Int)
    (u0 : WeightUpdater)
    (h0 : ∀ i, (-(DISK_VALUE * 20) ≤ u0.weight.pattern i ∧
          u0.weight.pattern i ≤ DISK_VALUE * 20) ∧
        (-(DISK_VALUE * 20) ≤ u0.weight.parity i ∧
          u0.weight.parity i ≤ DISK_VALUE * 20)) :
    (∀ ops : List WeightOp, ∀ i,
      (-(DISK_VALUE * 20) ≤ (applyWeightOps table fstep u0 ops).weight.pattern i ∧
        (applyWeightOps table fstep u0 ops).weight.pattern i ≤ DISK_VALUE * 20) ∧
      (-(DISK_VALUE * 20) ≤ (applyWeightOps table fstep u0 ops).weight.parity i ∧
        (applyWeightOps table fstep u0 ops).weight.parity i ≤ DISK_VALUE * 20)) ∧
    (∀ (u : WeightUpdater) (b : Board) (value : Int),
      (WeightUpdater.update table u b value).weight = u.weight) ∧
    (∀ (u : WeightUpdater) (i : Nat), u.pattern_count i ≤ FREQ_THRESHOLD →
      (WeightUpdater.flush fstep u).weight.pattern i = u.weight.pattern i) ∧
    (∀ (u : WeightUpdater) (i : Nat), u.parity_count i ≤ FREQ_THRESHOLD →
      (WeightUpdater.flush fstep u).weight.parity i = u.weight.parity i) ∧
    (∀ (u : WeightUpdater) (i : Nat), FREQ_THRESHOLD < u.pattern_count i →
      (WeightUpdater.flush fstep u).pattern_count i = 0 ∧
        (WeightUpdater.flush fstep u).pattern_sum i = 0) ∧
    (∀ (u : WeightUpdater) (i : Nat), FREQ_THRESHOLD < u.parity_count i →
      (WeightUpdater.flush fstep u).parity_count i = 0 ∧
        (WeightUpdater.flush fstep u).parity_sum i = 0) := by
  have hMAX : MAX_PATTERN_VALUE = DISK_VALUE * 20 := rfl
  refine ⟨?_, fun u b value => update_preserves_weight table u b value,
    ?_, ?_, ?_, ?_⟩
  · have main : ∀ (ops : List WeightOp) (u : WeightUpdater),
        (∀ i, (-MAX_PATTERN_VALUE ≤ u.weight.pattern i ∧
            u.weight.pattern i ≤ MAX_PATTERN_VALUE) ∧
          (-MAX_PATTERN_VALUE ≤ u.weight.parity i ∧
            u.weight.parity i ≤ MAX_PATTERN_VALUE)) →
        ∀ i, (-MAX_PATTERN_VALUE ≤ (applyWeightOps table fstep u ops).weight.pattern i ∧
            (applyWeightOps table fstep u ops).weight.pattern i ≤ MAX_PATTERN_VALUE) ∧
          (-MAX_PATTERN_VALUE ≤ (applyWeightOps table fstep u ops).weight.parity i ∧
            (applyWeightOps table fstep u ops).weight.parity i ≤ MAX_PATTERN_VALUE) := by
      intro ops
      induction ops with
      | nil => intro u hu; exact hu
      | cons op rest ih =>
        intro u hu
        rw [applyWeightOps, List.foldl_cons]
        show ∀ i, _ ∧ _
        refine ih (applyWeightOp table fstep u op) ?_
        cases op with
        | update b value =>
          intro i
          have hw : (applyWeightOp table fstep u (WeightOp.update b value)).weight =
              u.weight := update_preserves_weight table u b value
          rw [hw]
          exact hu i
        | flush => exact flush_weight_bound fstep u hu
    rw [hMAX] at main
    exact fun ops => main ops u0 h0
  · intro u i hc
    unfold WeightUpdater.flush
    simp only [gt_iff_lt]
    rw [if_neg (Nat.not_lt.mpr hc)]
  · intro u i hc
    unfold WeightUpdater.flush
    simp only [gt_iff_lt]
    rw [if_neg (Nat.not_lt.mpr hc)]
  · intro u i hc
    unfold WeightUpdater.flush
    simp only [gt_iff_lt]
    rw [if_pos hc, if_pos hc]
    exact ⟨rfl, rfl⟩
  · intro u i hc
    unfold WeightUpdater.flush
    simp only [gt_iff_lt]
    rw [if_pos hc, if_pos hc]
    exact ⟨rfl, rfl⟩

/-- Witness for `weight_store_invariant`, at the zero weight store. -/
theorem weight_store_invariant_witness :
    (∀ i : Nat, (-(DISK_VALUE * 20) ≤ (WeightUpdater.new Weight.default).weight.pattern i ∧
        (WeightUpdater.new Weight.default).weight.pattern i ≤ DISK_VALUE * 20) ∧
      (-(DISK_VALUE * 20) ≤ (WeightUpdater.new Weight.default).weight.parity i ∧
        (WeightUpdater.new Weight.default).weight.parity i ≤ DISK_VALUE * 20)) ∧
    (∀ ops : List WeightOp, ∀ i,
      (-(DISK_VALUE * 20) ≤
          (applyWeightOps [] (fun d => d) (WeightUpdater.new Weight.default) ops).weight.pattern i ∧
        (applyWeightOps [] (fun d => d) (WeightUpdater.new Weight.default) ops).weight.pattern i ≤
          DISK_VALUE * 20) ∧
      (-(DISK_VALUE * 20) ≤
          (applyWeightOps [] (fun d => d) (WeightUpdater.new Weight.default) ops).weight.parity i ∧
        (applyWeightOps [] (fun d => d) (WeightUpdater.new Weight.default) ops).weight.parity i ≤
          DISK_VALUE * 20)) :=
  ⟨fun i => by
      refine ⟨⟨?_, ?_⟩, ?_, ?_⟩ <;>
        simp [WeightUpdater.new, Weight.default, DISK_VALUE],
    (weight_store_invariant [] (fun d => d) (WeightUpdater.new Weight.default)
      (fun i => by
        refine ⟨⟨?_, ?_⟩, ?_, ?_⟩ <;>
          simp [WeightUpdater.new, Weight.default, DISK_VALUE])).1⟩

/-- Largest `i32` value (`i32::MAX`). -/
def I32_MAX : Int := 2147483647

/-- Smallest `i32` value (`i32::MIN`), the initial best score of
`nega_max`. -/
def I32_MIN : Int := -2147483648

/-- Result of one search call: the returned score, the chosen move, and
the value of the `visited_nodes` accumulator (incremented exactly once
per leaf evaluation). -/
structure SearchResult where
  score : Int
  best_pos : Option Pos
  nodes : Nat
deriving DecidableEq

/-- Modelled from the spec: the board interface used by the search
(`board.all_flipped(color)`, `board.game_over()`, and the `Evaluate`
capability).  The color-tagged Board API that `com.rs` calls is not part
of the given core sources, so it is abstracted into an explicit
interface record; the search functions below are literal translations of
`alpha_beta` and `nega_max` over this interface, with `i32` scores
embedded as `Int`. -/
structure SearchEnv (σ : Type) where
  all_flipped : σ → Color → List (Pos × σ)
  game_over : σ → Bool
  evaluate : σ → Color → Bool → Int

/-- The move loop of `nega_max`: fold over the children, negating each
child's score and keeping the first strict improvement. -/
def nmLoop {σ : Type} (recCall : σ → SearchResult) :
    List (Pos × σ) → Int → Option (Pos × Int) → Nat →
      Int × Option (Pos × Int) × Nat
  | [], mx, best, nodes => (mx, best, nodes)
  | (p, s) :: rest, mx, best, nodes =>
    let r := recCall s
    let value := -r.score
    if value > mx then nmLoop recCall rest value (some (p, value)) (nodes + r.nodes)
    else nmLoop recCall rest mx best (nodes + r.nodes)

/-- Full-width negamax (`nega_max`), with an explicit structural fuel;
`nega_max` below supplies fuel `2 * depth + 2`, which the measure
`2 * depth + (2 - pass)` shows to be sufficient (children decrease the
depth, a pass keeps the depth but sets the pass flag, two passes in a
row evaluate as a terminal leaf). -/
def negaMaxFuel {σ : Type} (env : SearchEnv σ) :
    Nat → σ → Color → Nat → Bool → SearchResult
  | 0, _, _, _, _ => ⟨0, none, 0⟩
  | fuel + 1, s, c, depth, inPass =>
    if depth = 0 then ⟨env.evaluate s c (env.game_over s), none, 1⟩
    else
      match env.all_flipped s c with
      | [] =>
        if inPass then ⟨env.evaluate s c true, none, 1⟩
        else
          let r := negaMaxFuel env fuel s c.reverse depth true
          ⟨-r.score, none, r.nodes⟩
      | child :: rest =>
        match nmLoop (fun s2 => negaMaxFuel env fuel s2 c.reverse (depth - 1) false)
            (child :: rest) I32_MIN none 0 with
        | (_, some (p, score), nodes) => ⟨score, some p, nodes⟩
        | (mx, none, nodes) => ⟨mx, none, nodes⟩

/-- Outcome of the alpha-beta move loop: either a beta cutoff (the
caller returns `(beta, None)`), or the final alpha, best move and node
count. -/
inductive AbLoopOut where
  | cut (nodes : Nat)
  | done (alpha : Int) (best : Option (Pos × Int)) (nodes : Nat)

/-- The move loop of `alpha_beta`: each child is searched with the
window `(-beta, -alpha)` for the current alpha; an improvement raises
alpha and records the move, and `alpha ≥ beta` returns immediately. -/
def abLoop {σ : Type} (recCall : σ → Int → Int → SearchResult) (beta : Int) :
    List (Pos × σ) → Int → Option (Pos × Int) → Nat → AbLoopOut
  | [], alpha, best, nodes => AbLoopOut.done alpha best nodes
  | (p, s) :: rest, alpha, best, nodes =>
    let r := recCall s (-beta) (-alpha)
    let value := -r.score
    if value > alpha then
      if value ≥ beta then AbLoopOut.cut (nodes + r.nodes)
      else abLoop recCall beta rest value (some (p, value)) (nodes + r.nodes)
    else abLoop recCall beta rest alpha best (nodes + r.nodes)

/-- Alpha-beta search (`alpha_beta`), with an explicit structural fuel
as for `negaMaxFuel`. -/
def alphaBetaFuel {σ : Type} (env : SearchEnv σ) :
    Nat → σ → Color → Nat → Int → Int → Bool → SearchResult
  | 0, _, _, _, _, _, _ => ⟨0, none, 0⟩
  | fuel + 1, s, c, depth, alpha, beta, inPass =>
    if depth = 0 then ⟨env.evaluate s c (env.game_over s), none, 1⟩
    else
      match env.all_flipped s c with
      | [] =>
        if inPass then ⟨env.evaluate s c true, none, 1⟩
        else
          let r := alphaBetaFuel env fuel s c.reverse depth (-beta) (-alpha) true
          ⟨-r.score, none, r.nodes⟩
      | child :: rest =>
        match abLoop (fun s2 a b =>
            alphaBetaFuel env fuel s2 c.reverse (depth - 1) a b false)
            beta (child :: rest) alpha none 0 with
        | AbLoopOut.cut nodes => ⟨beta, none, nodes⟩
        | AbLoopOut.done _ (some (p, score)) nodes => ⟨score, some p, nodes⟩
        | AbLoopOut.done alpha2 none nodes => ⟨alpha2, none, nodes⟩

/-- The `alpha_beta` function of the sources. -/
def alpha_beta {σ : Type} (env : SearchEnv σ) (s : σ) (c : Color)
    (depth : Nat) (alpha beta : Int) (inPass : Bool) : SearchResult :=
  alphaBetaFuel env (2 * depth + 2) s c depth alpha beta inPass

/-- The `nega_max` function of the sources. -/
def nega_max {σ : Type} (env : SearchEnv σ) (s : σ) (c : Color)
    (depth : Nat) (inPass : Bool) : SearchResult :=
  negaMaxFuel env (2 * depth + 2) s c depth inPass

/-- Modelled from the spec: `Board::game_over`, called by the search but
absent from the given core sources: the game is over when the board is
full, one side has no disks, or neither orientation has a legal move. -/
def Board.game_over (b : Board) : Bool :=
  b.count_all_disks = 64 || PosSet.count b.mine_disks = 0 ||
    PosSet.count b.others_disks = 0 ||
    (!b.can_play && !b.reverse.can_play)

/-- The search environment over the engine's own board: moves come from
`Board::all_flipped` (the color argument is implicit in the `mine` /
`others` framing of the perspective-swapped board, so the interface
ignores it). -/
def boardEnv (ev : Board → Color → Bool → Int) : SearchEnv Board :=
  { all_flipped := fun b _ => b.all_flipped
    game_over := fun b => b.game_over
    evaluate := ev }

/-- Claim C2, counterexample.  With the evaluator that constantly
returns `i32::MAX` (a legal `i32` evaluator), alpha-beta with the full
window `(-i32::MAX, i32::MAX)` and full-width negamax disagree on the
chosen move already at depth 1 from the opening board: every child
scores `-i32::MAX`, which negamax accepts as a best move while
alpha-beta never raises its alpha above `-i32::MAX`, so it reports no
move. -/
theorem alpha_beta_nega_max_counterexample :
    (alpha_beta (boardEnv (fun _ _ _ => I32_MAX)) Board.new Color.Black 1
        (-I32_MAX) I32_MAX false).best_pos = none ∧
    (nega_max (boardEnv (fun _ _ _ => I32_MAX)) Board.new Color.Black 1
        false).best_pos = some Pos.D3 ∧
    (none : Option Pos) ≠ some Pos.D3 := by
  refine ⟨by decide, by decide, by decide⟩

/-- Node count carried by a loop outcome. -/
def abOutNodes (o : AbLoopOut) : Nat :=
  match o with
  | AbLoopOut.cut n => n
  | AbLoopOut.done _ _ n => n

/-- Unfolding `alphaBetaFuel` at a leaf. -/
theorem alphaBetaFuel_leaf {σ : Type} (env : SearchEnv σ) (f : Nat) (s : σ)
    (c : Color) (alpha beta : Int) (inPass : Bool) :
    alphaBetaFuel env (f + 1) s c 0 alpha beta inPass =
      ⟨env.evaluate s c (env.game_over s), none, 1⟩ := by
  rw [alphaBetaFuel]
  rw [if_pos rfl]

/-- Unfolding `alphaBetaFuel` at a node without moves. -/
theorem alphaBetaFuel_pass {σ : Type} (env : SearchEnv σ) (f : Nat) (s : σ)
    (c : Color) (depth : Nat) (alpha beta : Int) (inPass : Bool)
    (hd : depth ≠ 0) (hch : env.all_flipped s c = []) :
    alphaBetaFuel env (f + 1) s c depth alpha beta inPass =
      (if inPass then ⟨env.evaluate s c true, none, 1⟩
       else
        let r := alphaBetaFuel env f s c.reverse depth (-beta) (-alpha) true
        ⟨-r.score, none, r.nodes⟩) := by
  rw [alphaBetaFuel, if_neg hd, hch]

/-- Unfolding `alphaBetaFuel` at a node with moves. -/
theorem alphaBetaFuel_children {σ : Type} (env : SearchEnv σ) (f : Nat) (s : σ)
    (c : Color) (depth : Nat) (alpha beta : Int) (inPass : Bool)
    (hd : depth ≠ 0) (child : Pos × σ) (rest : List (Pos × σ))
    (hch : env.all_flipped s c = child :: rest) :
    alphaBetaFuel env (f + 1) s c depth alpha beta inPass =
      (match abLoop (fun s2 a b =>
          alphaBetaFuel env f s2 c.reverse (depth - 1) a b false)
          beta (child :: rest) alpha none 0 with
        | AbLoopOut.cut nodes => ⟨beta, none, nodes⟩
        | AbLoopOut.done _ (some (p, score)) nodes => ⟨score, some p, nodes⟩
        | AbLoopOut.done alpha2 none nodes => ⟨alpha2, none, nodes⟩) := by
  rw [alphaBetaFuel, if_neg hd, hch]

/-- Unfolding `negaMaxFuel` at a leaf. -/
theorem negaMaxFuel_leaf {σ : Type} (env : SearchEnv σ) (f : Nat) (s : σ)
    (c : Color) (inPass : Bool) :
    negaMaxFuel env (f + 1) s c 0 inPass =
      ⟨env.evaluate s c (env.game_over s), none, 1⟩ := by
  rw [negaMaxFuel]
  rw [if_pos rfl]

/-- Unfolding `negaMaxFuel` at a node without moves. -/
theorem negaMaxFuel_pass {σ : Type} (env : SearchEnv σ) (f : Nat) (s : σ)
    (c : Color) (depth : Nat) (inPass : Bool)
    (hd : depth ≠ 0) (hch : env.all_flipped s c = []) :
    negaMaxFuel env (f + 1) s c depth inPass =
      (if inPass then ⟨env.evaluate s c true, none, 1⟩
       else
        let r := negaMaxFuel env f s c.reverse depth true
        ⟨-r.score, none, r.nodes⟩) := by
  rw [negaMaxFuel, if_neg hd, hch]

/-- Unfolding `negaMaxFuel` at a node with moves. -/
theorem negaMaxFuel_children {σ : Type} (env : SearchEnv σ) (f : Nat) (s : σ)
    (c : Color) (depth : Nat) (inPass : Bool)
    (hd : depth ≠ 0) (child : Pos × σ) (rest : List (Pos × σ))
    (hch : env.all_flipped s c = child :: rest) :
    negaMaxFuel env (f + 1) s c depth inPass =
      (match nmLoop (fun s2 => negaMaxFuel env f s2 c.reverse (depth - 1) false)
          (child :: rest) I32_MIN none 0 with
        | (_, some (p, score), nodes) => ⟨score, some p, nodes⟩
        | (mx, none, nodes) => ⟨mx, none, nodes⟩) := by
  rw [negaMaxFuel, if_neg hd, hch]

/-- The negamax loop visits the nodes of every child. -/
theorem nmLoop_nodes {σ : Type} (rn : σ → SearchResult) :
    ∀ (l : List (Pos × σ)) (mx : Int) (best : Option (Pos × Int)) (nN : Nat),
      (nmLoop rn l mx best nN).2.2 =
        nN + (l.map (fun pc => (rn pc.2).nodes)).sum := by
  intro l
  induction l with
  | nil => intro mx best nN; simp [nmLoop]
  | cons pc rest ih =>
    intro mx best nN
    obtain ⟨p, s⟩ := pc
    simp only [nmLoop, List.map_cons, List.sum_cons]
    by_cases hv : -(rn s).score > mx
    · rw [if_pos hv, ih]
      omega
    · rw [if_neg hv, ih]
      omega

/-- The alpha-beta loop visits at most the nodes of every child. -/
theorem abLoop_nodes_le {σ : Type} (rn : σ → SearchResult)
    (rc : σ → Int → Int → SearchResult) (beta : Int) :
    ∀ l : List (Pos × σ),
      (∀ pc ∈ l, ∀ a b : Int, (rc pc.2 a b).nodes ≤ (rn pc.2).nodes) →
      ∀ (alpha : Int) (best : Option (Pos × Int)) (nA : Nat),
      abOutNodes (abLoop rc beta l alpha best nA) ≤
        nA + (l.map (fun pc => (rn pc.2).nodes)).sum := by
  intro l
  induction l with
  | nil => intro _ alpha best nA; simp [abLoop, abOutNodes]
  | cons pc rest ih =>
    intro hch alpha best nA
    obtain ⟨p, s⟩ := pc
    have hc1 : ∀ a b : Int, (rc s a b).nodes ≤ (rn s).nodes :=
      hch (p, s) (List.mem_cons_self _ _)
    have hcr : ∀ pc2 ∈ rest, ∀ a b : Int, (rc pc2.2 a b).nodes ≤ (rn pc2.2).nodes :=
      fun pc2 h2 => hch pc2 (List.mem_cons_of_mem _ h2)
    simp only [abLoop, List.map_cons, List.sum_cons]
    by_cases hv : -(rc s (-beta) (-alpha)).score > alpha
    · rw [if_pos hv]
      by_cases hb : -(rc s (-beta) (-alpha)).score ≥ beta
      · rw [if_pos hb]
        have h1 := hc1 (-beta) (-alpha)
        simp only [abOutNodes]
        omega
      · rw [if_neg hb]
        have h2 := ih hcr (-(rc s (-beta) (-alpha)).score)
          (some (p, -(rc s (-beta) (-alpha)).score))
          (nA + (rc s (-beta) (-alpha)).nodes)
        have h1 := hc1 (-beta) (-alpha)
        omega
    · rw [if_neg hv]
      have h2 := ih hcr alpha best (nA + (rc s (-beta) (-alpha)).nodes)
      have h1 := hc1 (-beta) (-alpha)
      omega

/-- Alpha-beta never visits more nodes than full-width negamax, for any
window, any fuel above the measure, and any evaluator. -/
theorem search_nodes_le {σ : Type} (env : SearchEnv σ) :
    ∀ (f : Nat) (s : σ) (c : Color) (depth : Nat) (inPass : Bool)
      (alpha beta : Int),
      2 * depth + (if inPass then 1 else 2) ≤ f →
      (alphaBetaFuel env f s c depth alpha beta inPass).nodes ≤
        (negaMaxFuel env f s c depth inPass).nodes := by
  intro f
  induction f with
  | zero =>
    intro s c depth inPass alpha beta h
    exfalso
    cases inPass <;> simp at h
  | succ f ih =>
    intro s c depth inPass alpha beta h
    by_cases hd : depth = 0
    · subst hd
      rw [alphaBetaFuel_leaf, negaMaxFuel_leaf]
    · cases hch : env.all_flipped s c with
      | nil =>
        rw [alphaBetaFuel_pass env f s c depth alpha beta inPass hd hch,
          negaMaxFuel_pass env f s c depth inPass hd hch]
        cases inPass with
        | true => simp
        | false =>
          simp only [Bool.false_eq_true, if_false]
          exact ih s c.reverse depth true (-beta) (-alpha)
            (by simp at h ⊢; omega)
      | cons child rest =>
        rw [alphaBetaFuel_children env f s c depth alpha beta inPass hd child rest hch,
          negaMaxFuel_children env f s c depth inPass hd child rest hch]
        have hm : 2 * (depth - 1) + 2 ≤ f := by
          cases inPass <;> simp at h <;> omega
        have hrec : ∀ pc ∈ child :: rest, ∀ a b : Int,
            (alphaBetaFuel env f pc.2 c.reverse (depth - 1) a b false).nodes ≤
              (negaMaxFuel env f pc.2 c.reverse (depth - 1) false).nodes := by
          intro pc _ a b
          exact ih pc.2 c.reverse (depth - 1) false a b (by simpa using hm)
        have hab := abLoop_nodes_le
          (fun s2 => negaMaxFuel env f s2 c.reverse (depth - 1) false)
          (fun s2 a b => alphaBetaFuel env f s2 c.reverse (depth - 1) a b false)
          beta (child :: rest) hrec alpha none 0
        have hnm := nmLoop_nodes
          (fun s2 => negaMaxFuel env f s2 c.reverse (depth - 1) false)
          (child :: rest) I32_MIN none 0
        rcases hnml : nmLoop (fun s2 => negaMaxFuel env f s2 c.reverse (depth - 1) false)
            (child :: rest) I32_MIN none 0 with ⟨mx2, bestN2, nN2⟩
        rw [hnml] at hnm
        simp only at hnm
        cases habl : abLoop (fun s2 a b =>
            alphaBetaFuel env f s2 c.reverse (depth - 1) a b false)
            beta (child :: rest) alpha none 0 with
        | cut n =>
          rw [habl] at hab
          simp only [abOutNodes] at hab
          cases bestN2 with
          | none => dsimp only; omega
          | some pm => obtain ⟨pp, mm⟩ := pm; dsimp only; omega
        | done alpha2 best2 n =>
          rw [habl] at hab
          simp only [abOutNodes] at hab
          cases best2 with
          | none =>
            cases bestN2 with
            | none => dsimp only; omega
            | some pm => obtain ⟨pp, mm⟩ := pm; dsimp only; omega
          | some pm0 =>
            obtain ⟨pp0, mm0⟩ := pm0
            cases bestN2 with
            | none => dsimp only; omega
            | some pm => obtain ⟨pp, mm⟩ := pm; dsimp only; omega

/-- Facts about the negamax move loop: the recorded best move always
carries the current maximum, the maximum only grows, it is the initial
value or one of the child values, it dominates every child value, and it
stays at the initial value when no move was recorded. -/
theorem nmLoop_spec {σ : Type} (rn : σ → SearchResult) :
    ∀ (l : List (Pos × σ)) (mx : Int) (best : Option (Pos × Int)) (nN : Nat),
      (∀ pm : Pos × Int, best = some pm → pm.2 = mx) →
      ((∀ pm : Pos × Int, (nmLoop rn l mx best nN).2.1 = some pm →
          pm.2 = (nmLoop rn l mx best nN).1) ∧
       mx ≤ (nmLoop rn l mx best nN).1 ∧
       ((nmLoop rn l mx best nN).1 = mx ∨
         ∃ pc ∈ l, (nmLoop rn l mx best nN).1 = -(rn pc.2).score) ∧
       ((nmLoop rn l mx best nN).2.1 = none →
         best = none ∧ (nmLoop rn l mx best nN).1 = mx) ∧
       (∀ pc ∈ l, -(rn pc.2).score ≤ (nmLoop rn l mx best nN).1)) := by
  intro l
  induction l with
  | nil =>
    intro mx best nN hbest
    have hred : nmLoop rn [] mx best nN = (mx, best, nN) := rfl
    rw [hred]
    exact ⟨hbest, le_refl mx, Or.inl rfl, fun h => ⟨h, rfl⟩,
      fun pc h => absurd h (List.not_mem_nil pc)⟩
  | cons pc rest ih =>
    intro mx best nN hbest
    obtain ⟨p, s⟩ := pc
    simp only [nmLoop]
    by_cases hv : -(rn s).score > mx
    · rw [if_pos hv]
      obtain ⟨ih1, ih2, ih3, ih4, ih5⟩ := ih (-(rn s).score) (some (p, -(rn s).score))
        (nN + (rn s).nodes) (fun pm hpm => by rw [← Option.some.inj hpm])
      refine ⟨ih1, le_trans (le_of_lt hv) ih2, ?_, ?_, ?_⟩
      · rcases ih3 with h | ⟨pc2, hpc2, hval⟩
        · exact Or.inr ⟨(p, s), List.mem_cons_self _ _, h⟩
        · exact Or.inr ⟨pc2, List.mem_cons_of_mem _ hpc2, hval⟩
      · intro hnone
        obtain ⟨habs, _⟩ := ih4 hnone
        exact absurd habs (by simp)
      · intro pc2 hpc2
        rcases List.mem_cons.mp hpc2 with h | h
        · rw [h]
          exact ih2
        · exact ih5 pc2 h
    · rw [if_neg hv]
      obtain ⟨ih1, ih2, ih3, ih4, ih5⟩ := ih mx best (nN + (rn s).nodes) hbest
      refine ⟨ih1, ih2, ?_, ih4, ?_⟩
      · rcases ih3 with h | ⟨pc2, hpc2, hval⟩
        · exact Or.inl h
        · exact Or.inr ⟨pc2, List.mem_cons_of_mem _ hpc2, hval⟩
      · intro pc2 hpc2
        rcases List.mem_cons.mp hpc2 with h | h
        · rw [h]
          exact le_trans (not_lt.mp hv) ih2
        · exact ih5 pc2 h

/-- Relation between a child's negamax result and its alpha-beta result
under an arbitrary valid window: exact inside the window, a hard bound on
the respective side outside it, together with the evaluator bound on the
negamax score. -/
def ChildRel {σ : Type} (rn : σ → SearchResult)
    (rc : σ → Int → Int → SearchResult) (B : Int) (s : σ) : Prop :=
  |(rn s).score| ≤ B ∧
  ∀ a b : Int, -I32_MAX ≤ a → b ≤ I32_MAX → a < b →
    ((a < (rn s).score ∧ (rn s).score < b → (rc s a b).score = (rn s).score) ∧
     ((rn s).score ≤ a → (rc s a b).score ≤ a) ∧
     (b ≤ (rn s).score → b ≤ (rc s a b).score))

/-- Joint invariant of the two move loops: either no child has beaten
the original alpha yet (alpha-beta has recorded nothing and keeps the
caller's alpha, while negamax tracks the maximum below it), or the two
loops agree on the best move, which carries the running maximum strictly
inside the window. -/
def LoopInv (alpha0 beta mx alphac : Int)
    (bestN bestA : Option (Pos × Int)) : Prop :=
  (bestA = none ∧ alphac = alpha0 ∧ mx ≤ alpha0 ∧
    (bestN = none → mx = I32_MIN) ∧
    (∀ pm : Pos × Int, bestN = some pm → pm.2 = mx)) ∨
  (∃ p m, bestN = some (p, m) ∧ bestA = some (p, m) ∧ mx = m ∧ alphac = m ∧
    alpha0 < m ∧ m < beta)

/-- Walking the two move loops in lockstep: if no child value reaches
beta, alpha-beta finishes without a cutoff and the joint invariant holds
of the final states; if some child value reaches beta, alpha-beta
cuts. -/
theorem searchLoop_rel {σ : Type} (rn : σ → SearchResult)
    (rc : σ → Int → Int → SearchResult) (B alpha0 beta : Int)
    (ha0 : -I32_MAX ≤ alpha0) (hbeta : beta ≤ I32_MAX)
    (hab : alpha0 < beta) :
    ∀ l : List (Pos × σ), (∀ pc ∈ l, ChildRel rn rc B pc.2) →
    ∀ (mx alphac : Int) (bestN bestA : Option (Pos × Int)) (nN nA : Nat),
      LoopInv alpha0 beta mx alphac bestN bestA →
      ((∀ pc ∈ l, -(rn pc.2).score < beta) →
        ∃ alphac2 bestA2 nA2,
          abLoop rc beta l alphac bestA nA = AbLoopOut.done alphac2 bestA2 nA2 ∧
          LoopInv alpha0 beta (nmLoop rn l mx bestN nN).1 alphac2
            (nmLoop rn l mx bestN nN).2.1 bestA2) ∧
      ((∃ pc ∈ l, beta ≤ -(rn pc.2).score) →
        ∃ nA2, abLoop rc beta l alphac bestA nA = AbLoopOut.cut nA2) := by
  intro l
  induction l with
  | nil =>
    intro _ mx alphac bestN bestA nN nA hinv
    constructor
    · intro _
      exact ⟨alphac, bestA, nA, rfl, hinv⟩
    · rintro ⟨pc, hpc, _⟩
      exact absurd hpc (List.not_mem_nil pc)
  | cons pc rest ih =>
    intro hch mx alphac bestN bestA nN nA hinv
    obtain ⟨p, s⟩ := pc
    have hchr : ∀ pc2 ∈ rest, ChildRel rn rc B pc2.2 :=
      fun pc2 h2 => hch pc2 (List.mem_cons_of_mem _ h2)
    have hac_lt : alphac < beta := by
      rcases hinv with ⟨_, h2, _, _, _⟩ | ⟨q, m, _, _, _, h5, _, h7⟩
      · omega
      · omega
    have hac_ge : -I32_MAX ≤ alphac := by
      rcases hinv with ⟨_, h2, _, _, _⟩ | ⟨q, m, _, _, _, h5, h6, _⟩
      · omega
      · omega
    have hmx_le : mx ≤ alphac := by
      rcases hinv with ⟨_, h2, h3, _, _⟩ | ⟨q, m, _, _, h4, h5, _, _⟩
      · omega
      · omega
    have ha0_le : alpha0 ≤ alphac := by
      rcases hinv with ⟨_, h2, _, _, _⟩ | ⟨q, m, _, _, _, h5, h6, _⟩
      · omega
      · omega
    have hc := (hch (p, s) (List.mem_cons_self _ _)).2 (-beta) (-alphac)
      (by omega) (by omega) (by omega)
    dsimp only at hc
    simp only [nmLoop, abLoop]
    by_cases hvb : beta ≤ -(rn s).score
    · have hcut : beta ≤ -(rc s (-beta) (-alphac)).score := by
        have := hc.2.1 (by omega)
        omega
      rw [if_pos (by omega : -(rc s (-beta) (-alphac)).score > alphac),
        if_pos (by omega : -(rc s (-beta) (-alphac)).score ≥ beta)]
      constructor
      · intro hall
        exact absurd (hall (p, s) (List.mem_cons_self _ _)) (not_lt.mpr hvb)
      · intro _
        exact ⟨nA + (rc s (-beta) (-alphac)).nodes, rfl⟩
    · have hvb2 : -(rn s).score < beta := by omega
      by_cases hva : alphac < -(rn s).score
      · have hexact : (rc s (-beta) (-alphac)).score = (rn s).score :=
          hc.1 ⟨by omega, by omega⟩
        rw [if_pos (by omega : -(rc s (-beta) (-alphac)).score > alphac),
          if_neg (by omega : ¬ -(rc s (-beta) (-alphac)).score ≥ beta),
          if_pos (by omega : -(rn s).score > mx)]
        have hinv2 : LoopInv alpha0 beta (-(rn s).score) (-(rn s).score)
            (some (p, -(rn s).score)) (some (p, -(rn s).score)) := by
          right
          exact ⟨p, -(rn s).score, rfl, rfl, rfl, rfl, by omega, by omega⟩
        have hrec := ih hchr (-(rn s).score) (-(rn s).score)
          (some (p, -(rn s).score)) (some (p, -(rn s).score))
          (nN + (rn s).nodes) (nA + (rc s (-beta) (-alphac)).nodes) hinv2
        have hval : -(rc s (-beta) (-alphac)).score = -(rn s).score := by
          rw [hexact]
        rw [hval]
        constructor
        · intro hall
          exact hrec.1 (fun pc2 h2 => hall pc2 (List.mem_cons_of_mem _ h2))
        · rintro ⟨pc2, hpc2, hge⟩
          rcases List.mem_cons.mp hpc2 with h2 | h2
          · rw [h2] at hge
            dsimp only at hge
            omega
          · exact hrec.2 ⟨pc2, h2, hge⟩
      · have hlow : -(rc s (-beta) (-alphac)).score ≤ alphac := by
          have := hc.2.2 (by omega)
          omega
        rw [if_neg (by omega : ¬ -(rc s (-beta) (-alphac)).score > alphac)]
        by_cases hvmx : -(rn s).score > mx
        · rw [if_pos hvmx]
          have hcase1 : bestA = none ∧ alphac = alpha0 ∧ mx ≤ alpha0 := by
            rcases hinv with ⟨h1, h2, h3, _, _⟩ | ⟨q, m, _, _, h4, h5, _, _⟩
            · exact ⟨h1, h2, h3⟩
            · omega
          have hinv2 : LoopInv alpha0 beta (-(rn s).score) alphac
              (some (p, -(rn s).score)) bestA := by
            left
            refine ⟨hcase1.1, hcase1.2.1, by omega, ?_, ?_⟩
            · intro habs
              exact absurd habs (by simp)
            · intro pm hpm
              rw [← Option.some.inj hpm]
          have hrec := ih hchr (-(rn s).score) alphac
            (some (p, -(rn s).score)) bestA
            (nN + (rn s).nodes) (nA + (rc s (-beta) (-alphac)).nodes) hinv2
          constructor
          · intro hall
            exact hrec.1 (fun pc2 h2 => hall pc2 (List.mem_cons_of_mem _ h2))
          · rintro ⟨pc2, hpc2, hge⟩
            rcases List.mem_cons.mp hpc2 with h2 | h2
            · rw [h2] at hge
              dsimp only at hge
              omega
            · exact hrec.2 ⟨pc2, h2, hge⟩
        · rw [if_neg hvmx]
          have hrec := ih hchr mx alphac bestN bestA
            (nN + (rn s).nodes) (nA + (rc s (-beta) (-alphac)).nodes) hinv
          constructor
          · intro hall
            exact hrec.1 (fun pc2 h2 => hall pc2 (List.mem_cons_of_mem _ h2))
          · rintro ⟨pc2, hpc2, hge⟩
            rcases List.mem_cons.mp hpc2 with h2 | h2
            · rw [h2] at hge
              dsimp only at hge
              omega
            · exact hrec.2 ⟨pc2, h2, hge⟩

/-- Main relation between the two searches, by induction on the fuel:
the negamax score stays within the evaluator bound, and against any
valid window alpha-beta returns the negamax score and move when that
score lies strictly inside the window, and otherwise fails low (at most
alpha) or high (at least beta) on the matching side. -/
theorem searchFuel_spec {σ : Type} (env : SearchEnv σ) (B : Int)
    (hB : B ≤ I32_MAX - 1)
    (heval : ∀ s c g, |env.evaluate s c g| ≤ B) :
    ∀ (f : Nat) (s : σ) (c : Color) (depth : Nat) (inPass : Bool),
      2 * depth + (if inPass then 1 else 2) ≤ f →
      |(negaMaxFuel env f s c depth inPass).score| ≤ B ∧
      ∀ alpha beta : Int, -I32_MAX ≤ alpha → beta ≤ I32_MAX → alpha < beta →
        ((alpha < (negaMaxFuel env f s c depth inPass).score ∧
            (negaMaxFuel env f s c depth inPass).score < beta →
          (alphaBetaFuel env f s c depth alpha beta inPass).score =
              (negaMaxFuel env f s c depth inPass).score ∧
            (alphaBetaFuel env f s c depth alpha beta inPass).best_pos =
              (negaMaxFuel env f s c depth inPass).best_pos) ∧
         ((negaMaxFuel env f s c depth inPass).score ≤ alpha →
          (alphaBetaFuel env f s c depth alpha beta inPass).score ≤ alpha) ∧
         (beta ≤ (negaMaxFuel env f s c depth inPass).score →
          beta ≤ (alphaBetaFuel env f s c depth alpha beta inPass).score)) := by
  have hMinMax : I32_MIN = -I32_MAX - 1 := by norm_num [I32_MIN, I32_MAX]
  intro f
  induction f with
  | zero =>
    intro s c depth inPass h
    exfalso
    cases inPass <;> simp at h
  | succ f ih =>
    intro s c depth inPass h
    by_cases hd : depth = 0
    · subst hd
      constructor
      · rw [negaMaxFuel_leaf]
        exact heval s c (env.game_over s)
      · intro alpha beta ha hb hab
        rw [negaMaxFuel_leaf, alphaBetaFuel_leaf]
        exact ⟨fun _ => ⟨rfl, rfl⟩, fun hx => hx, fun hx => hx⟩
    · cases hch : env.all_flipped s c with
      | nil =>
        cases inPass with
        | true =>
          constructor
          · rw [negaMaxFuel_pass env f s c depth true hd hch, if_pos rfl]
            exact heval s c true
          · intro alpha beta ha hb hab
            rw [negaMaxFuel_pass env f s c depth true hd hch,
              alphaBetaFuel_pass env f s c depth alpha beta true hd hch,
              if_pos rfl, if_pos rfl]
            exact ⟨fun _ => ⟨rfl, rfl⟩, fun hx => hx, fun hx => hx⟩
        | false =>
          have hco := ih s c.reverse depth true (by simp at h ⊢; omega)
          constructor
          · rw [negaMaxFuel_pass env f s c depth false hd hch]
            simp only [Bool.false_eq_true, if_false]
            rw [abs_neg]
            exact hco.1
          · intro alpha beta ha hb hab
            have hw := hco.2 (-beta) (-alpha) (by omega) (by omega) (by omega)
            rw [negaMaxFuel_pass env f s c depth false hd hch,
              alphaBetaFuel_pass env f s c depth alpha beta false hd hch]
            simp only [Bool.false_eq_true, if_false]
            refine ⟨fun hx => ?_, fun hx => ?_, fun hx => ?_⟩
            · have he := hw.1 ⟨by omega, by omega⟩
              exact ⟨by omega, trivial⟩
            · have he := hw.2.2 (by omega)
              omega
            · have he := hw.2.1 (by omega)
              omega
      | cons child rest =>
        have hm : 2 * (depth - 1) + 2 ≤ f := by
          cases inPass <;> simp at h <;> omega
        constructor
        · rw [negaMaxFuel_children env f s c depth inPass hd child rest hch]
          have hspec := nmLoop_spec
            (fun s2 => negaMaxFuel env f s2 c.reverse (depth - 1) false)
            (child :: rest) I32_MIN none 0
            (fun pm hpm => Option.noConfusion hpm)
          have hcB := (ih child.2 c.reverse (depth - 1) false (by simpa using hm)).1
          rcases hnml : nmLoop
              (fun s2 => negaMaxFuel env f s2 c.reverse (depth - 1) false)
              (child :: rest) I32_MIN none 0 with ⟨mxF, bestNF, nN2⟩
          rw [hnml] at hspec
          dsimp only at hspec
          obtain ⟨hs1, hs2, hs3, hs4, hs5⟩ := hspec
          have h5c := hs5 child (List.mem_cons_self _ _)
          rw [abs_le] at hcB
          cases bestNF with
          | none =>
            dsimp only
            exfalso
            have hmin := (hs4 rfl).2
            omega
          | some pm =>
            obtain ⟨p, sc⟩ := pm
            dsimp only
            have hsc : sc = mxF := hs1 (p, sc) rfl
            rcases hs3 with hmin | ⟨pc2, hpc2, hveq⟩
            · exfalso
              omega
            · have hpcB := (ih pc2.2 c.reverse (depth - 1) false (by simpa using hm)).1
              rw [abs_le] at hpcB
              rw [abs_le]
              omega
        · intro alpha beta ha hb hab
          rw [negaMaxFuel_children env f s c depth inPass hd child rest hch,
            alphaBetaFuel_children env f s c depth alpha beta inPass hd child rest hch]
          have hchild : ∀ pc ∈ child :: rest, ChildRel
              (fun s2 => negaMaxFuel env f s2 c.reverse (depth - 1) false)
              (fun s2 a b => alphaBetaFuel env f s2 c.reverse (depth - 1) a b false)
              B pc.2 := by
            intro pc _
            have hco := ih pc.2 c.reverse (depth - 1) false (by simpa using hm)
            refine ⟨hco.1, fun a b ha2 hb2 hab2 => ?_⟩
            have hw := hco.2 a b ha2 hb2 hab2
            exact ⟨fun hx => (hw.1 hx).1, hw.2.1, hw.2.2⟩
          have hinv0 : LoopInv alpha beta I32_MIN alpha none none := by
            left
            exact ⟨rfl, rfl, by omega, fun _ => rfl,
              fun pm hpm => Option.noConfusion hpm⟩
          have hrel := searchLoop_rel
            (fun s2 => negaMaxFuel env f s2 c.reverse (depth - 1) false)
            (fun s2 a b => alphaBetaFuel env f s2 c.reverse (depth - 1) a b false)
            B alpha beta ha hb hab (child :: rest) hchild
            I32_MIN alpha none none 0 0 hinv0
          have hspec := nmLoop_spec
            (fun s2 => negaMaxFuel env f s2 c.reverse (depth - 1) false)
            (child :: rest) I32_MIN none 0
            (fun pm hpm => Option.noConfusion hpm)
          rcases hnml : nmLoop
              (fun s2 => negaMaxFuel env f s2 c.reverse (depth - 1) false)
              (child :: rest) I32_MIN none 0 with ⟨mxF, bestNF, nN2⟩
          rw [hnml] at hrel hspec
          dsimp only at hrel hspec
          obtain ⟨hs1, hs2, hs3, hs4, hs5⟩ := hspec
          by_cases hcut : ∃ pc ∈ child :: rest,
              beta ≤ -((fun s2 =>
                negaMaxFuel env f s2 c.reverse (depth - 1) false) pc.2).score
          · obtain ⟨nA2, habl⟩ := hrel.2 hcut
            rw [habl]
            obtain ⟨pc0, hpc0, hbeta0⟩ := hcut
            have h50 := hs5 pc0 hpc0
            dsimp only at hbeta0 h50
            have hge : beta ≤ mxF := by omega
            cases bestNF with
            | none =>
              dsimp only
              exact ⟨fun hx => absurd hx.2 (by omega),
                fun hx => absurd hx (by omega), fun _ => le_refl beta⟩
            | some pm =>
              obtain ⟨p, sc⟩ := pm
              have hsc : sc = mxF := hs1 (p, sc) rfl
              dsimp only
              exact ⟨fun hx => absurd hx.2 (by omega),
                fun hx => absurd hx (by omega), fun _ => le_refl beta⟩
          · push_neg at hcut
            obtain ⟨alphac2, bestA2, nA2, habl, hinvF⟩ := hrel.1 hcut
            rw [habl]
            rcases hinvF with ⟨hA2, halc, hmxle, _, hbs⟩ |
                ⟨p, m, hbn, hba, hmx, halc, h1, h2⟩
            · subst hA2
              subst halc
              cases bestNF with
              | none =>
                dsimp only
                exact ⟨fun hx => absurd hx.1 (by omega),
                  fun _ => le_refl _, fun hx => absurd hx (by omega)⟩
              | some pm =>
                obtain ⟨p, sc⟩ := pm
                have hsc : sc = mxF := hbs (p, sc) rfl
                dsimp only
                exact ⟨fun hx => absurd hx.1 (by omega),
                  fun _ => le_refl _, fun hx => absurd hx (by omega)⟩
            · subst hbn
              subst hba
              subst hmx
              subst halc
              dsimp only
              exact ⟨fun _ => ⟨rfl, rfl⟩, fun hx => absurd hx (by omega),
                fun hx => absurd hx (by omega)⟩

/-- Claim C2, amended.  For every state, color, depth and pass flag, and
every evaluator whose values are bounded in absolute value by some
`B ≤ i32::MAX - 1`, `alpha_beta` called with the full window
`(-i32::MAX, i32::MAX)` and the full-width `nega_max` return the same
score and the same best move, and alpha-beta visits at most as many
nodes as negamax.  The bound on the evaluator is necessary: the
counterexample `alpha_beta_nega_max_counterexample` shows that the
unrestricted claim fails for the legal evaluator that constantly
returns `i32::MAX`. -/
theorem alpha_beta_equals_nega_max {σ : Type} (env : SearchEnv σ) (B : Int)
    (hB : B ≤ I32_MAX - 1)
    (heval : ∀ s c g, |env.evaluate s c g| ≤ B)
    (s : σ) (c : Color) (depth : Nat) (inPass : Bool) :
    (alpha_beta env s c depth (-I32_MAX) I32_MAX inPass).score =
      (nega_max env s c depth inPass).score ∧
    (alpha_beta env s c depth (-I32_MAX) I32_MAX inPass).best_pos =
      (nega_max env s c depth inPass).best_pos ∧
    (alpha_beta env s c depth (-I32_MAX) I32_MAX inPass).nodes ≤
      (nega_max env s c depth inPass).nodes := by
  have hf : 2 * depth + (if inPass then 1 else 2) ≤ 2 * depth + 2 := by
    cases inPass <;> simp
  have hspec := searchFuel_spec env B hB heval (2 * depth + 2) s c depth inPass hf
  have hbound := hspec.1
  rw [abs_le] at hbound
  have hpos : (0 : Int) < I32_MAX := by norm_num [I32_MAX]
  have hw := hspec.2 (-I32_MAX) I32_MAX (le_refl _) (le_refl _) (by omega)
  have hex := hw.1 ⟨by omega, by omega⟩
  exact ⟨hex.1, hex.2,
    search_nodes_le env (2 * depth + 2) s c depth inPass (-I32_MAX) I32_MAX hf⟩

theorem alpha_beta_equals_nega_max_witness :
    (alpha_beta (boardEnv (fun _ _ _ => 0)) Board.new Color.Black 1
        (-I32_MAX) I32_MAX false).score =
      (nega_max (boardEnv (fun _ _ _ => 0)) Board.new Color.Black 1 false).score ∧
    (alpha_beta (boardEnv (fun _ _ _ => 0)) Board.new Color.Black 1
        (-I32_MAX) I32_MAX false).best_pos =
      (nega_max (boardEnv (fun _ _ _ => 0)) Board.new Color.Black 1 false).best_pos ∧
    (alpha_beta (boardEnv (fun _ _ _ => 0)) Board.new Color.Black 1
        (-I32_MAX) I32_MAX false).nodes ≤
      (nega_max (boardEnv (fun _ _ _ => 0)) Board.new Color.Black 1 false).nodes :=
  alpha_beta_equals_nega_max (boardEnv (fun _ _ _ => 0)) 0
    (by norm_num [I32_MAX]) (fun s c g => by simp [boardEnv])
    Board.new Color.Black 1 false

/-- Index of the first occurrence of a position in a list (used by the
pattern-table construction to relate two orderings of one cell set). -/
def posIndexOf (p : Pos) : List Pos → Nat
  | [] => 0
  | q :: rest => if p = q then 0 else posIndexOf p rest + 1

/-- Digit-reshuffling map on base-3 indices: digit `k` of the result is
digit `rho[k]` of the argument. -/
def digitMap (rho : List Nat) (i : Nat) : Nat :=
  match rho with
  | [] => 0
  | r :: rest => i / 3 ^ r % 3 + 3 * digitMap rest i

/-- A reshuffled index stays below the capacity of its digit list. -/
theorem digitMap_lt (i : Nat) : ∀ rho : List Nat, digitMap rho i < 3 ^ rho.length := by
  intro rho
  induction rho with
  | nil => simp [digitMap]
  | cons r rest ih =>
    have hd : i / 3 ^ r % 3 < 3 := Nat.mod_lt _ (by norm_num)
    simp only [digitMap, List.length_cons, pow_succ]
    omega

/-- Digit `k` of a reshuffled index. -/
theorem digitMap_digit (i : Nat) : ∀ (rho : List Nat) (k : Nat), k < rho.length →
    digitMap rho i / 3 ^ k % 3 = i / 3 ^ rho.getD k 0 % 3 := by
  intro rho
  induction rho with
  | nil => intro k hk; simp at hk
  | cons r rest ih =>
    intro k hk
    cases k with
    | zero =>
      have hd : i / 3 ^ r % 3 < 3 := Nat.mod_lt _ (by norm_num)
      simp only [digitMap, pow_zero, Nat.div_one, List.getD_cons_zero]
      omega
    | succ k2 =>
      have hd : i / 3 ^ r % 3 < 3 := Nat.mod_lt _ (by norm_num)
      have h1 : digitMap (r :: rest) i / 3 ^ (k2 + 1) = digitMap rest i / 3 ^ k2 := by
        have h3 : (3:Nat) ^ (k2 + 1) = 3 * 3 ^ k2 := by ring
        rw [h3, ← Nat.div_div_eq_div_mul]
        congr 1
        simp only [digitMap]
        omega
      rw [h1, List.getD_cons_succ]
      exact ih k2 (by simpa using hk)

/-- Composing two digit reshuffles composes the digit lists. -/
theorem digitMap_comp (i : Nat) : ∀ rho1 rho2 : List Nat,
    (∀ r ∈ rho1, r < rho2.length) →
    digitMap rho1 (digitMap rho2 i) =
      digitMap (rho1.map (fun r => rho2.getD r 0)) i := by
  intro rho1
  induction rho1 with
  | nil => intro rho2 _; simp [digitMap]
  | cons r rest ih =>
    intro rho2 h
    simp only [digitMap, List.map_cons]
    rw [digitMap_digit i rho2 r (h r (List.mem_cons_self _ _)),
      ih rho2 (fun r2 h2 => h r2 (List.mem_cons_of_mem _ h2))]

/-- Shifting every digit selector by one reads the divided argument. -/
theorem digitMap_shift (i : Nat) : ∀ rho : List Nat,
    digitMap (rho.map (fun r => r + 1)) i = digitMap rho (i / 3) := by
  intro rho
  induction rho with
  | nil => simp [digitMap]
  | cons r rest ih =>
    simp only [List.map_cons, digitMap, ih]
    congr 2
    rw [Nat.div_div_eq_div_mul]
    congr 1
    ring

/-- The identity digit list reproduces the index. -/
theorem digitMap_range : ∀ n i : Nat, i < 3 ^ n → digitMap (List.range n) i = i := by
  intro n
  induction n with
  | zero =>
    intro i hi
    simp only [pow_zero] at hi
    simp only [List.range_zero, digitMap]
    omega
  | succ n ih =>
    intro i hi
    have h3 : (3:Nat) ^ (n + 1) = 3 * 3 ^ n := by ring
    rw [List.range_succ_eq_map]
    simp only [digitMap, pow_zero, Nat.div_one]
    rw [digitMap_shift, ih (i / 3) (by omega)]
    omega

/-- Digit of a pattern value at the index of one of its cells. -/
theorem digit_extract (b : Board) : ∀ (l : List Pos) (p : Pos), p ∈ l →
    Board.pattern_value b l / 3 ^ posIndexOf p l % 3 = b.cell_digit p := by
  intro l
  induction l with
  | nil => intro p hp; simp at hp
  | cons q rest ih =>
    intro p hp
    by_cases hpq : p = q
    · subst hpq
      have hd := cell_digit_le b p
      simp only [Board.pattern_value, posIndexOf, eq_self_iff_true, if_true, pow_zero, Nat.div_one]
      omega
    · have hpr : p ∈ rest := (List.mem_cons.mp hp).resolve_left hpq
      have hd := cell_digit_le b q
      have h1 : Board.pattern_value b (q :: rest) / 3 ^ posIndexOf p (q :: rest) =
          Board.pattern_value b rest / 3 ^ posIndexOf p rest := by
        simp only [Board.pattern_value, posIndexOf, if_neg hpq]
        have h3 : (3:Nat) ^ (posIndexOf p rest + 1) = 3 * 3 ^ posIndexOf p rest := by
          ring
        rw [h3, ← Nat.div_div_eq_div_mul]
        congr 1
        omega
      rw [h1, ih p hpr]

/-- Reading a pattern through a second list of its cells is a digit
reshuffle of the pattern value. -/
theorem pattern_value_read (b : Board) : ∀ l2 l1 : List Pos,
    (∀ p ∈ l2, p ∈ l1) →
    Board.pattern_value b l2 =
      digitMap (l2.map (fun p => posIndexOf p l1)) (Board.pattern_value b l1) := by
  intro l2
  induction l2 with
  | nil => intro l1 _; simp [Board.pattern_value, digitMap]
  | cons p rest ih =>
    intro l1 h
    simp only [Board.pattern_value, List.map_cons, digitMap]
    rw [digit_extract b l1 p (h p (List.mem_cons_self _ _)),
      ih l1 (fun q hq => h q (List.mem_cons_of_mem _ hq))]

/-- The decode loop writes the base-3 digits of the index onto the
pattern cells (arbitrary index, early stop included) and leaves the
other cells untouched. -/
theorem from_aux_digit : ∀ l : List Pos, l.Nodup → ∀ (n : Nat) (board : Board),
    (∀ q ∈ l, board.get_disk q = none) → ∀ p : Pos,
    (Board.from_pattern_index_aux l n board).cell_digit p =
      if p ∈ l then n / 3 ^ posIndexOf p l % 3 else board.cell_digit p := by
  intro l
  induction l with
  | nil =>
    intro _ n board _ p
    simp [Board.from_pattern_index_aux]
  | cons q rest ih =>
    intro hnd n board hclear p
    have hqr : q ∉ rest := (List.nodup_cons.mp hnd).1
    have hndr : rest.Nodup := (List.nodup_cons.mp hnd).2
    simp only [Board.from_pattern_index_aux]
    set board2 := (match n % 3 with
      | 0 => board
      | 1 => board.set_disk q Disk.Mine
      | _ => board.set_disk q Disk.Others) with hboard2
    have h3 : n % 3 = 0 ∨ n % 3 = 1 ∨ n % 3 = 2 := by omega
    have hdig2 : board2.cell_digit q = n % 3 := by
      rcases h3 with h | h | h <;> rw [hboard2] <;> simp only [h]
      · simp [Board.cell_digit, hclear q (List.mem_cons_self _ _), h]
      · simp [Board.cell_digit, get_set_disk_self, h]
      · simp [Board.cell_digit, get_set_disk_self, h]
    have hoth2 : ∀ r : Pos, r ≠ q → board2.get_disk r = board.get_disk r := by
      intro r hr
      rcases h3 with h | h | h <;> rw [hboard2] <;> simp only [h]
      · exact get_set_disk_other board q _ r hr
      · exact get_set_disk_other board q _ r hr
    by_cases hn2 : n / 3 = 0
    · rw [if_pos hn2]
      by_cases hpq : p = q
      · subst hpq
        rw [if_pos (List.mem_cons_self _ _)]
        simp only [posIndexOf, eq_self_iff_true, if_true, pow_zero, Nat.div_one]
        exact hdig2
      · by_cases hpr : p ∈ rest
        · rw [if_pos (List.mem_cons_of_mem _ hpr)]
          have hlhs : board2.cell_digit p = 0 := by
            simp [Board.cell_digit, hoth2 p hpq,
              hclear p (List.mem_cons_of_mem _ hpr)]
          have hrhs : n / 3 ^ posIndexOf p (q :: rest) = 0 := by
            simp only [posIndexOf, if_neg hpq]
            have h3e : (3:Nat) ^ (posIndexOf p rest + 1) =
                3 * 3 ^ posIndexOf p rest := by ring
            rw [h3e, ← Nat.div_div_eq_div_mul, hn2, Nat.zero_div]
          rw [hlhs, hrhs]
        · rw [if_neg (by simp [List.mem_cons, hpq, hpr])]
          simp [Board.cell_digit, hoth2 p hpq]
    · rw [if_neg hn2,
        ih hndr (n / 3) board2
          (fun r hr => by
            rw [hoth2 r (fun hrq => hqr (hrq ▸ hr))]
            exact hclear r (List.mem_cons_of_mem _ hr)) p]
      by_cases hpq : p = q
      · subst hpq
        rw [if_neg hqr, if_pos (List.mem_cons_self _ _)]
        simp only [posIndexOf, eq_self_iff_true, if_true, pow_zero, Nat.div_one]
        exact hdig2
      · by_cases hpr : p ∈ rest
        · rw [if_pos hpr, if_pos (List.mem_cons_of_mem _ hpr)]
          simp only [posIndexOf, if_neg hpq]
          have h3e : (3:Nat) ^ (posIndexOf p rest + 1) =
              3 * 3 ^ posIndexOf p rest := by ring
          rw [h3e, ← Nat.div_div_eq_div_mul]
        · rw [if_neg hpr, if_neg (by simp [List.mem_cons, hpq, hpr])]
          simp [Board.cell_digit, hoth2 p hpq]

/-- Digits of a decoded pattern board. -/
theorem decode_digit (pattern : List Pos) (hnd : pattern.Nodup) (i : Nat)
    (p : Pos) :
    (Board.from_pattern_index pattern i).cell_digit p =
      if p ∈ pattern then i / 3 ^ posIndexOf p pattern % 3 else 0 := by
  rw [Board.from_pattern_index,
    from_aux_digit pattern hnd i Board.empty (fun q _ => get_disk_empty q) p]
  by_cases hp : p ∈ pattern
  · rw [if_pos hp, if_pos hp]
  · rw [if_neg hp, if_neg hp]
    simp [Board.cell_digit, get_disk_empty]

/-- In-range pattern indices are exact pattern values. -/
theorem pattern_index_eq_value (b : Board) (l : List Pos) (hlen : l.length ≤ 10) :
    b.pattern_index l = Board.pattern_value b l := by
  rw [Board.pattern_index]
  rw [pattern_index_aux_eq b l 0 1 ?_]
  · rw [Nat.zero_add, Nat.one_mul]
  · have h1 : (3:Nat) ^ l.length ≤ 3 ^ 10 := Nat.pow_le_pow_right (by norm_num) hlen
    have h2 : (3:Nat) ^ 10 = 59049 := by norm_num
    omega

/-- Reading a decoded board through any list of the pattern's cells is a
digit reshuffle of the index. -/
theorem decode_value (pat : List Pos) (hnd : pat.Nodup) (i : Nat) :
    ∀ pi0 : List Pos, (∀ p ∈ pi0, p ∈ pat) →
    Board.pattern_value (Board.from_pattern_index pat i) pi0 =
      digitMap (pi0.map (fun p => posIndexOf p pat)) i := by
  intro pi0
  induction pi0 with
  | nil => intro _; simp [Board.pattern_value, digitMap]
  | cons p rest ih =>
    intro h
    simp only [Board.pattern_value, List.map_cons, digitMap]
    rw [decode_digit pat hnd i p, if_pos (h p (List.mem_cons_self _ _)),
      ih (fun q hq => h q (List.mem_cons_of_mem _ hq))]

/-- The re-reading step of the weight-map construction is the digit
reshuffle given by the two orderings. -/
theorem step_eq_digitMap (pi0 pat : List Pos) (hnd : pat.Nodup)
    (hmem : ∀ p ∈ pi0, p ∈ pat) (hlen : pi0.length ≤ 10) (i : Nat) :
    (Board.from_pattern_index pat i).pattern_index pi0 =
      digitMap (pi0.map (fun p => posIndexOf p pat)) i := by
  rw [pattern_index_eq_value _ pi0 hlen, decode_value pat hnd i pi0 hmem]

/-- One iteration of the weight-map marking loop of
`create_pattern_to_weight_map`: an already-marked raw index is skipped;
otherwise a fresh slot is allocated and written at the index and at its
image under every re-reading step (`u16::MAX = 65535` is the unmarked
sentinel of the source). -/
def markStep (steps : List (Nat → Nat)) (mw : List Nat × Nat) (i : Nat) :
    List Nat × Nat :=
  if mw.1.getD i 0 ≠ 65535 then mw
  else
    (steps.foldl (fun m2 g => m2.set (g i) mw.2) (mw.1.set i mw.2), mw.2 + 1)

/-- The weight-map construction (`create_pattern_to_weight_map` of
`build.rs`): iterate the marking over every raw pattern index, starting
from the all-unmarked map; returns the map together with the number of
weight slots allocated. -/
def create_pattern_to_weight_map (count : Nat) (steps : List (Nat → Nat)) :
    List Nat × Nat :=
  (List.range count).foldl (markStep steps) (List.replicate count 65535, 0)

/-- Reading a cell after a point write. -/
theorem getD_set_lem (m : List Nat) (j p v : Nat) (hp : p < m.length) :
    (m.set j v).getD p 0 = if p = j then v else m.getD p 0 := by
  by_cases hpj : p = j
  · subst hpj
    rw [if_pos rfl, List.getD_eq_getElem?_getD, List.getElem?_set_self (by omega)]
    rfl
  · rw [if_neg hpj, List.getD_eq_getElem?_getD, List.getD_eq_getElem?_getD,
      List.getElem?_set_ne (fun h => hpj h.symm)]

/-- Writing a batch of cells preserves the length. -/
theorem foldl_set_length (v : Nat) : ∀ (js : List Nat) (m : List Nat),
    (js.foldl (fun m2 j => m2.set j v) m).length = m.length := by
  intro js
  induction js with
  | nil => intro m; rfl
  | cons j rest ih =>
    intro m
    simp only [List.foldl_cons, ih, List.length_set]

/-- Reading a cell after a batch of point writes. -/
theorem foldl_set_getD (v : Nat) : ∀ (js : List Nat) (m : List Nat) (p : Nat),
    p < m.length →
    (js.foldl (fun m2 j => m2.set j v) m).getD p 0 =
      if p ∈ js then v else m.getD p 0 := by
  intro js
  induction js with
  | nil => intro m p _; simp
  | cons j rest ih =>
    intro m p hp
    simp only [List.foldl_cons]
    rw [ih (m.set j v) p (by simpa using hp), getD_set_lem m j p v hp]
    by_cases hpr : p ∈ rest
    · rw [if_pos hpr, if_pos (List.mem_cons_of_mem _ hpr)]
    · rw [if_neg hpr]
      by_cases hpj : p = j
      · subst hpj
        rw [if_pos rfl, if_pos (List.mem_cons_self _ _)]
      · rw [if_neg hpj, if_neg (by simp [List.mem_cons, hpj, hpr])]

/-- Orbit constancy of a (partially built) weight map: every marked
index reads the same slot as all its images under the re-reading
steps. -/
def OrbConst (count : Nat) (steps : List (Nat → Nat)) (m : List Nat) : Prop :=
  ∀ j, j < count → m.getD j 0 ≠ 65535 → ∀ g ∈ steps, m.getD (g j) 0 = m.getD j 0

/-- One marking iteration keeps the map length, keeps orbit constancy,
never changes an already marked index, marks the processed index, and
allocates at most one slot.  The hypotheses say that the steps act
within range, are closed under composition up to the identity, and have
inverses up to the identity. -/
theorem markStep_preserves (count : Nat) (steps : List (Nat → Nat))
    (hH1 : ∀ g ∈ steps, ∀ i, i < count → g i < count)
    (hH2 : ∀ g ∈ steps, ∀ h2 ∈ steps, ∀ i, i < count →
      g (h2 i) = i ∨ ∃ k ∈ steps, g (h2 i) = k i)
    (hH3 : ∀ g ∈ steps, ∀ i, i < count → g i = i ∨ ∃ h2 ∈ steps, h2 (g i) = i)
    (m : List Nat) (wc i : Nat) (hm : m.length = count) (hi : i < count)
    (hwc : wc < 65535) (hinv : OrbConst count steps m) :
    (markStep steps (m, wc) i).1.length = count ∧
    OrbConst count steps (markStep steps (m, wc) i).1 ∧
    (∀ j, j < count → m.getD j 0 ≠ 65535 →
      (markStep steps (m, wc) i).1.getD j 0 = m.getD j 0) ∧
    (markStep steps (m, wc) i).1.getD i 0 ≠ 65535 ∧
    (markStep steps (m, wc) i).2 ≤ wc + 1 := by
  by_cases hmark : m.getD i 0 ≠ 65535
  · rw [markStep, if_pos hmark]
    exact ⟨hm, hinv, fun _ _ _ => rfl, hmark, Nat.le_succ wc⟩
  · push_neg at hmark
    rw [markStep, if_neg (by simpa using hmark)]
    have hfold : steps.foldl (fun m2 g => m2.set (g i) wc) (m.set i wc) =
        (steps.map (fun g => g i)).foldl (fun m2 j => m2.set j wc) (m.set i wc) := by
      rw [List.foldl_map]
    have hlen : (steps.foldl (fun m2 g => m2.set (g i) wc) (m.set i wc)).length =
        count := by
      rw [hfold, foldl_set_length, List.length_set, hm]
    have hchar : ∀ p, p < count →
        (steps.foldl (fun m2 g => m2.set (g i) wc) (m.set i wc)).getD p 0 =
          if p ∈ steps.map (fun g => g i) ∨ p = i then wc else m.getD p 0 := by
      intro p hp
      rw [hfold, foldl_set_getD wc (steps.map (fun g => g i)) (m.set i wc) p
          (by rw [List.length_set, hm]; exact hp),
        getD_set_lem m i p wc (by rw [hm]; exact hp)]
      by_cases h1 : p ∈ steps.map (fun g => g i)
      · rw [if_pos h1, if_pos (Or.inl h1)]
      · rw [if_neg h1]
        by_cases h2 : p = i
        · rw [if_pos h2, if_pos (Or.inr h2)]
        · rw [if_neg h2, if_neg (by simp [h1, h2])]
    have hnotorb : ∀ j, j < count → m.getD j 0 ≠ 65535 →
        ¬(j ∈ steps.map (fun g => g i) ∨ j = i) := by
      intro j hj hjm hor
      rcases hor with hjs | hji
      · obtain ⟨g, hg, hgi⟩ := List.mem_map.mp hjs
        rcases hH3 g hg i hi with hid | ⟨h2, hh2, hh2i⟩
        · rw [hid] at hgi
          exact hjm (hgi ▸ hmark)
        · rw [hgi] at hh2i
          have hsame := hinv j hj hjm h2 hh2
          rw [hh2i] at hsame
          rw [hsame] at hmark
          exact hjm hmark
      · exact hjm (hji ▸ hmark)
    refine ⟨hlen, ?_, ?_, ?_, le_refl _⟩
    · intro j hj hjm g hg
      have hgj : g j < count := hH1 g hg j hj
      rw [hchar j hj] at hjm
      by_cases hjO : j ∈ steps.map (fun g2 => g2 i) ∨ j = i
      · have hgjO : g j ∈ steps.map (fun g2 => g2 i) ∨ g j = i := by
          rcases hjO with hjs | hji
          · obtain ⟨h2, hh2, hh2i⟩ := List.mem_map.mp hjs
            rw [← hh2i]
            rcases hH2 g hg h2 hh2 i hi with hid | ⟨k, hk, hki⟩
            · exact Or.inr hid
            · exact Or.inl (by rw [hki]; exact List.mem_map.mpr ⟨k, hk, rfl⟩)
          · subst hji
            exact Or.inl (List.mem_map.mpr ⟨g, hg, rfl⟩)
        rw [hchar j hj, if_pos hjO, hchar (g j) hgj, if_pos hgjO]
      · rw [if_neg hjO] at hjm
        have hgjnO : ¬(g j ∈ steps.map (fun g2 => g2 i) ∨ g j = i) :=
          hnotorb (g j) hgj (by rw [hinv j hj hjm g hg]; exact hjm)
        rw [hchar j hj, if_neg hjO, hchar (g j) hgj, if_neg hgjnO]
        exact hinv j hj hjm g hg
    · intro j hj hjm
      rw [hchar j hj, if_neg (hnotorb j hj hjm)]
    · rw [hchar i hi, if_pos (Or.inr rfl)]
      exact Nat.ne_of_lt hwc

/-- The marking loop keeps the map length and orbit constancy, never
unmarks, and marks every processed index. -/
theorem markLoop_invariant (count : Nat) (steps : List (Nat → Nat))
    (hH1 : ∀ g ∈ steps, ∀ i, i < count → g i < count)
    (hH2 : ∀ g ∈ steps, ∀ h2 ∈ steps, ∀ i, i < count →
      g (h2 i) = i ∨ ∃ k ∈ steps, g (h2 i) = k i)
    (hH3 : ∀ g ∈ steps, ∀ i, i < count → g i = i ∨ ∃ h2 ∈ steps, h2 (g i) = i) :
    ∀ l : List Nat, (∀ i ∈ l, i < count) →
    ∀ (m : List Nat) (wc : Nat), m.length = count → wc + l.length ≤ 65535 →
    OrbConst count steps m →
    ((l.foldl (markStep steps) (m, wc)).1.length = count ∧
     OrbConst count steps (l.foldl (markStep steps) (m, wc)).1 ∧
     (∀ j, j < count → m.getD j 0 ≠ 65535 →
       (l.foldl (markStep steps) (m, wc)).1.getD j 0 ≠ 65535) ∧
     (∀ i ∈ l, (l.foldl (markStep steps) (m, wc)).1.getD i 0 ≠ 65535)) := by
  intro l
  induction l with
  | nil =>
    intro _ m wc hm _ hinv
    exact ⟨hm, hinv, fun j _ hjm => hjm, fun i hi => absurd hi (List.not_mem_nil i)⟩
  | cons i rest ih =>
    intro hl m wc hm hwc hinv
    have hi : i < count := hl i (List.mem_cons_self _ _)
    have hstep := markStep_preserves count steps hH1 hH2 hH3 m wc i hm hi
      (by simp only [List.length_cons] at hwc; omega) hinv
    obtain ⟨hlen1, hinv1, hpres1, hmarki, hwc1⟩ := hstep
    rcases hms : markStep steps (m, wc) i with ⟨m1, wc1⟩
    rw [hms] at hlen1 hinv1 hpres1 hmarki hwc1
    have hrec := ih (fun i2 h2 => hl i2 (List.mem_cons_of_mem _ h2)) m1 wc1 hlen1
      (by simp only [List.length_cons] at hwc; omega) hinv1
    obtain ⟨hlen2, hinv2, hpres2, hmark2⟩ := hrec
    rw [List.foldl_cons, hms]
    refine ⟨hlen2, hinv2, ?_, ?_⟩
    · intro j hj hjm
      exact hpres2 j hj (by rw [hpres1 j hj hjm]; exact hjm)
    · intro i2 hi2
      rcases List.mem_cons.mp hi2 with h2 | h2
      · subst h2
        exact hpres2 i2 hi hmarki
      · exact hmark2 i2 h2

/-- The finished weight map is constant on the orbits of the re-reading
steps. -/
theorem weight_map_orbit_constant (count : Nat) (steps : List (Nat → Nat))
    (hH1 : ∀ g ∈ steps, ∀ i, i < count → g i < count)
    (hH2 : ∀ g ∈ steps, ∀ h2 ∈ steps, ∀ i, i < count →
      g (h2 i) = i ∨ ∃ k ∈ steps, g (h2 i) = k i)
    (hH3 : ∀ g ∈ steps, ∀ i, i < count → g i = i ∨ ∃ h2 ∈ steps, h2 (g i) = i)
    (hcount : count ≤ 65535) :
    ∀ i, i < count → ∀ g ∈ steps,
      (create_pattern_to_weight_map count steps).1.getD (g i) 0 =
        (create_pattern_to_weight_map count steps).1.getD i 0 := by
  have hinit : OrbConst count steps (List.replicate count 65535) := by
    intro j hj hjm
    exact absurd (by
      rw [List.getD_eq_getElem?_getD, List.getElem?_replicate, if_pos hj]
      rfl) hjm
  have hmain := markLoop_invariant count steps hH1 hH2 hH3 (List.range count)
    (fun i hi => List.mem_range.mp hi) (List.replicate count 65535) 0
    (by simp) (by simp [hcount]) hinit
  intro i hi g hg
  exact hmain.2.1 i hi (hmain.2.2.2 i (List.mem_range.mpr hi)) g hg

/-- Horizontal mirror on cells (`Pos::from_xy(MAX - p.x(), p.y()).unwrap()`
in `PatternMap::from_pattern`; the coordinates stay in range, so the
`unwrap` never fires and the fallback value is irrelevant). -/
def hFlipPos (p : Pos) : Pos := (Pos.from_xy (7 - (p.x : Int)) (p.y : Int)).getD p

/-- Vertical mirror on cells (`Pos::from_xy(p.x(), MAX - p.y()).unwrap()`). -/
def vFlipPos (p : Pos) : Pos := (Pos.from_xy (p.x : Int) (7 - (p.y : Int))).getD p

/-- Quarter rotation on cells (`Pos::from_xy(MAX - p.y(), p.x()).unwrap()`). -/
def rot90Pos (p : Pos) : Pos := (Pos.from_xy (7 - (p.y : Int)) (p.x : Int)).getD p

/-- The cell set of an ordering (`pattern.iter().copied().collect::<PosSet>()`,
the union of the cell bits). -/
def posSetOfList (l : List Pos) : Nat := l.foldl (fun acc p => acc ||| p.bit) 0

/-- Lexicographic comparison of orderings (`Vec<Pos>` with the derived
`Ord`, which compares the inner cell index). -/
def listPosLt : List Pos → List Pos → Bool
  | [], [] => false
  | [], _ :: _ => true
  | _ :: _, [] => false
  | p :: ps, q :: qs =>
    if p.idx < q.idx then true
    else if q.idx < p.idx then false
    else listPosLt ps qs

/-- Sorted-set insertion of one ordering (`BTreeSet<Vec<Pos>>::insert`). -/
def insertOrdering (pat : List Pos) : List (List Pos) → List (List Pos)
  | [] => [pat]
  | q :: qs =>
    if listPosLt pat q then pat :: q :: qs
    else if pat = q then q :: qs
    else q :: insertOrdering pat qs

/-- Sorted-map insertion of one ordering under its cell set
(`PatternMap::insert` into the `BTreeMap<PosSet, BTreeSet<Vec<Pos>>>`,
keyed by the `u128` value of the set). -/
def insertPattern (pat : List Pos) :
    List (Nat × List (List Pos)) → List (Nat × List (List Pos))
  | [] => [(posSetOfList pat, [pat])]
  | (k, s) :: rest =>
    if posSetOfList pat < k then (posSetOfList pat, [pat]) :: (k, s) :: rest
    else if posSetOfList pat = k then (k, insertOrdering pat s) :: rest
    else (k, s) :: insertPattern pat rest

/-- All stored orderings in map order (`PatternMap::all_patterns`). -/
def allOrderings (pm : List (Nat × List (List Pos))) : List (List Pos) :=
  (pm.map Prod.snd).flatten

/-- Insert the image of every stored ordering under a cell map
(`insert_mapped`, which snapshots `all_patterns` first). -/
def insert_mapped (f : Pos → Pos) (pm : List (Nat × List (List Pos))) :
    List (Nat × List (List Pos)) :=
  (allOrderings pm).foldl (fun m pat => insertPattern (pat.map f) m) pm

/-- `PatternMap::from_pattern`: close the declared ordering under the
horizontal mirror, the vertical mirror, and three quarter rotations. -/
def PatternMap.from_pattern (pattern : List Pos) : List (Nat × List (List Pos)) :=
  insert_mapped rot90Pos (insert_mapped rot90Pos (insert_mapped rot90Pos
    (insert_mapped vFlipPos (insert_mapped hFlipPos
      (insertPattern pattern [])))))

/-- The orderings stored for the first (smallest) cell set of a declared
pattern's orbit. -/
def firstOrdsOf (pat : List Pos) : List (List Pos) :=
  ((PatternMap.from_pattern pat).headD (0, [])).2

/-- The reading ordering of the weight-map construction
(`first_pattern`). -/
def piZeroOf (pat : List Pos) : List Pos := (firstOrdsOf pat).headD []

/-- The re-reading step functions of the weight-map construction (one
per remaining ordering of the first cell set). -/
def stepsOf (pat : List Pos) : List (Nat → Nat) :=
  (firstOrdsOf pat).tail.map
    (fun pat2 => fun i => (Board.from_pattern_index pat2 i).pattern_index (piZeroOf pat))

/-- The digit permutations realized by the re-reading steps. -/
def rhosOf (pat : List Pos) : List (List Nat) :=
  (firstOrdsOf pat).tail.map
    (fun pi2 => (piZeroOf pat).map (fun p => posIndexOf p pi2))

/-- The generated instance lists (one representative ordering per cell
set of the orbit). -/
def instancesOf (pat : List Pos) : List (List Pos) :=
  (PatternMap.from_pattern pat).map (fun e => e.2.headD [])

/-- The generated raw-index-to-slot map of one declared pattern. -/
def mapOf (pat : List Pos) : List Nat :=
  (create_pattern_to_weight_map (3 ^ pat.length) (stepsOf pat)).1

/-- The generated table entry of one declared pattern (`emit_pattern`):
the orbit representatives (the first stored ordering of every cell set)
as the instance list, the raw-index-to-slot map built by
`create_pattern_to_weight_map` from the re-reading steps of the first
cell set's remaining orderings, and the slot range. -/
def buildPatternDef (pattern : List Pos) (offset : Nat) : PatternDef :=
  { instances := instancesOf pattern
    toWeight := fun i => (mapOf pattern).getD i 0
    offset := offset
    wcount := (create_pattern_to_weight_map (3 ^ pattern.length) (stepsOf pattern)).2 }

/-- The declared patterns (`PATTERNS` of `build.rs`). -/
def PATTERNS : List (List Pos) := [
  [Pos.D1, Pos.C2, Pos.B3, Pos.A4],
  [Pos.E1, Pos.D2, Pos.C3, Pos.B4, Pos.A5],
  [Pos.F1, Pos.E2, Pos.D3, Pos.C4, Pos.B5, Pos.A6],
  [Pos.G1, Pos.F2, Pos.E3, Pos.D4, Pos.C5, Pos.B6, Pos.A7],
  [Pos.H1, Pos.G2, Pos.F3, Pos.E4, Pos.D5, Pos.C6, Pos.B7, Pos.A8],
  [Pos.A2, Pos.B2, Pos.C2, Pos.D2, Pos.E2, Pos.F2, Pos.G2, Pos.H2],
  [Pos.A3, Pos.B3, Pos.C3, Pos.D3, Pos.E3, Pos.F3, Pos.G3, Pos.H3],
  [Pos.A4, Pos.B4, Pos.C4, Pos.D4, Pos.E4, Pos.F4, Pos.G4, Pos.H4],
  [Pos.A1, Pos.B1, Pos.C1, Pos.D1, Pos.E1, Pos.F1, Pos.G1, Pos.H1, Pos.B2, Pos.G2],
  [Pos.A1, Pos.B1, Pos.C1, Pos.A2, Pos.B2, Pos.C2, Pos.A3, Pos.B3, Pos.C3],
  [Pos.A1, Pos.B1, Pos.C1, Pos.D1, Pos.E1, Pos.A2, Pos.B2, Pos.C2, Pos.D2, Pos.E2]]

/-- The emitted pattern table (`main` of `build.rs`): one entry per
declared pattern, with the weight offsets accumulated in order. -/
def buildTableAux : List (List Pos) → Nat → List PatternDef
  | [], _ => []
  | pat :: rest, off =>
    let pd := buildPatternDef pat off
    pd :: buildTableAux rest (off + pd.wcount)

/-- The full generated table. -/
def buildTable : List PatternDef := buildTableAux PATTERNS 0

/-- Bit set of the cells satisfying a predicate. -/
def posMask (f : Pos → Bool) : Nat :=
  Pos.allList.foldl (fun acc q => if f q then acc ||| q.bit else acc) 0

/-- The board with an explicit cell function (modelled from the spec's
board symmetries: the sources transform positions only, so the action on
boards is the cell-wise one). -/
def Board.ofCells (g : Pos → Option Disk) : Board :=
  { mine_disks := posMask (fun q => decide (g q = some Disk.Mine))
    others_disks := posMask (fun q => decide (g q = some Disk.Others)) }

/-- A board symmetry: cell `p` of the transformed board reads cell
`τ p` of the original board (for the involutive mirrors considered here
this is the same as moving every disk along `τ`). -/
def Board.transform (τ : Pos → Pos) (b : Board) : Board :=
  Board.ofCells (fun q => b.get_disk (τ q))

/-- Every position occurs in the full cell list. -/
theorem mem_allList (p : Pos) : p ∈ Pos.allList := by
  have hidx : Pos.from_index (p.idx : Int) = some p := by
    rw [Pos.from_index, dif_pos ⟨by positivity, by exact_mod_cast pos_idx_lt p,
      by simpa using p.valid⟩]
    exact congrArg some (pos_eq_of_idx_eq _ _ (by simp))
  rw [Pos.allList, List.mem_filterMap]
  refine ⟨(p.idx : Int), ?_, hidx⟩
  simp only [List.pure_def, List.bind_eq_flatMap, List.mem_flatMap, List.mem_range,
    List.mem_singleton]
  exact ⟨p.idx, pos_idx_lt p, rfl⟩

/-- Bit test of an accumulated cell mask. -/
theorem foldl_mask_testBit (f : Pos → Bool) (j : Nat) :
    ∀ (l : List Pos) (acc : Nat),
    (l.foldl (fun a q => if f q then a ||| q.bit else a) acc).testBit j =
      (acc.testBit j || l.any (fun q => f q && decide (q.idx = j))) := by
  intro l
  induction l with
  | nil => intro acc; simp
  | cons q rest ih =>
    intro acc
    simp only [List.foldl_cons, List.any_cons]
    by_cases hq : f q = true
    · rw [if_pos hq, ih, hq]
      simp only [Nat.testBit_lor, pos_bit_testBit, Bool.true_and]
      rw [Bool.or_assoc]
    · have hq2 : f q = false := by simpa using hq
      rw [if_neg hq, ih, hq2]
      simp

/-- Bit test of a predicate mask at a cell. -/
theorem posMask_testBit (f : Pos → Bool) (p : Pos) :
    (posMask f).testBit p.idx = f p := by
  rw [posMask, foldl_mask_testBit, Nat.zero_testBit, Bool.false_or]
  cases hf : f p
  · cases hany : Pos.allList.any (fun q => f q && decide (q.idx = p.idx))
    · rfl
    · obtain ⟨q, _, hq⟩ := List.any_eq_true.mp hany
      simp only [Bool.and_eq_true, decide_eq_true_eq] at hq
      obtain ⟨hfq, hqp⟩ := hq
      rw [pos_eq_of_idx_eq q p hqp] at hfq
      rw [hf] at hfq
      exact absurd hfq Bool.false_ne_true
  · rw [List.any_eq_true]
    exact ⟨p, mem_allList p, by simp [hf]⟩

/-- Reading a cell-function board. -/
theorem get_ofCells (g : Pos → Option Disk) (p : Pos) :
    (Board.ofCells g).get_disk p = g p := by
  rw [Board.get_disk]
  simp only [Board.ofCells, contains_eq_testBit, posMask_testBit]
  rcases hg : g p with _ | d
  · simp [hg]
  · cases d <;> simp [hg]

/-- Reading a transformed board. -/
theorem get_transform (τ : Pos → Pos) (b : Board) (p : Pos) :
    (b.transform τ).get_disk p = b.get_disk (τ p) := by
  rw [Board.transform, get_ofCells]

/-- Cell digits of a transformed board. -/
theorem cell_digit_transform (τ : Pos → Pos) (b : Board) (p : Pos) :
    (b.transform τ).cell_digit p = b.cell_digit (τ p) := by
  rw [Board.cell_digit, Board.cell_digit, get_transform]

/-- Pattern values of a transformed board read the mapped ordering. -/
theorem pattern_value_transform (τ : Pos → Pos) (b : Board) :
    ∀ l : List Pos,
    Board.pattern_value (b.transform τ) l = Board.pattern_value b (l.map τ) := by
  intro l
  induction l with
  | nil => rfl
  | cons p rest ih =>
    simp only [Board.pattern_value, List.map_cons, cell_digit_transform, ih]

/-- First-occurrence indices are within the list length. -/
theorem posIndexOf_lt (p : Pos) : ∀ l : List Pos, p ∈ l → posIndexOf p l < l.length := by
  intro l
  induction l with
  | nil => intro hp; simp at hp
  | cons q rest ih =>
    intro hp
    by_cases hpq : p = q
    · simp [posIndexOf, hpq]
    · have hpr : p ∈ rest := (List.mem_cons.mp hp).resolve_left hpq
      simp only [posIndexOf, if_neg hpq, List.length_cons]
      exact Nat.succ_lt_succ (ih hpr)

/-- Valid cell bits lie below 128. -/
theorem avail_testBit_lt (i : Nat) (h : availableBits.testBit i = true) : i < 128 := by
  by_contra hlt
  push_neg at hlt
  have hfalse : availableBits.testBit i = false := by
    apply Nat.testBit_eq_false_of_lt
    calc availableBits < 2 ^ 89 := by decide
    _ ≤ 2 ^ i := Nat.pow_le_pow_right (by norm_num) (by omega)
  rw [hfalse] at h
  exact Bool.false_ne_true h

/-- `Pos::from_index` succeeds on every valid cell bit. -/
theorem from_index_of_valid (i : Nat) (h : availableBits.testBit i = true) :
    Pos.from_index (i : Int) = some ⟨i, h⟩ := by
  rw [Pos.from_index, dif_pos ⟨by positivity,
    by exact_mod_cast avail_testBit_lt i h, by simpa using h⟩]
  exact congrArg some (pos_eq_of_idx_eq _ _ (by simp))

/-- A cell map lifted to bit indices (identity outside the valid cells;
used only to count bits through a symmetry). -/
def tIdx (τ : Pos → Pos) (i : Nat) : Nat :=
  ((Pos.from_index (i : Int)).map (fun p => (τ p).idx)).getD i

/-- The index map of a symmetry at a valid cell. -/
theorem tIdx_pos (τ : Pos → Pos) (p : Pos) : tIdx τ p.idx = (τ p).idx := by
  rw [tIdx, from_index_of_valid p.idx p.valid]
  rfl

/-- Bit membership of a predicate mask, at an arbitrary bit index. -/
theorem posMask_testBit_ex (f : Pos → Bool) (i : Nat) :
    (posMask f).testBit i = true ↔ ∃ p : Pos, p.idx = i ∧ f p = true := by
  rw [posMask, foldl_mask_testBit, Nat.zero_testBit, Bool.false_or,
    List.any_eq_true]
  constructor
  · rintro ⟨q, _, hq⟩
    simp only [Bool.and_eq_true, decide_eq_true_eq] at hq
    exact ⟨q, hq.2, hq.1⟩
  · rintro ⟨p, hpi, hfp⟩
    exact ⟨p, mem_allList p, by simp [hfp, hpi]⟩

/-- Counting a mask read through an involutive cell map gives the count
of the underlying clean mask. -/
theorem count_transform_mask (τ : Pos → Pos) (hinv2 : ∀ p : Pos, τ (τ p) = p)
    (s : Nat) (hclean : s &&& availableBits = s) :
    PosSet.count (posMask (fun q => s.testBit (τ q).idx)) = PosSet.count s := by
  have hsub : ∀ i : Nat, s.testBit i = true → availableBits.testBit i = true := by
    intro i hi
    rw [← hclean, Nat.testBit_land] at hi
    exact (Bool.and_eq_true _ _ ▸ hi).2
  rw [count_eq_card, count_eq_card]
  apply Finset.card_bij' (fun a _ => tIdx τ a) (fun a _ => tIdx τ a)
  · intro a ha
    rw [mem_bitsF] at ha ⊢
    obtain ⟨p, hpi, hfp⟩ := (posMask_testBit_ex _ a).mp ha.2
    subst hpi
    have hta : tIdx τ p.idx = (τ p).idx := tIdx_pos τ p
    rw [hta]
    exact ⟨pos_idx_lt (τ p), hfp⟩
  · intro a ha
    rw [mem_bitsF] at ha ⊢
    have hav := hsub a ha.2
    have hta : tIdx τ a = (τ ⟨a, hav⟩).idx := tIdx_pos τ ⟨a, hav⟩
    rw [hta]
    refine ⟨pos_idx_lt _, ?_⟩
    apply (posMask_testBit_ex _ _).mpr
    refine ⟨τ ⟨a, hav⟩, rfl, ?_⟩
    show s.testBit (τ (τ ⟨a, hav⟩)).idx = true
    rw [hinv2 ⟨a, hav⟩]
    exact ha.2
  · intro a ha
    rw [mem_bitsF] at ha
    obtain ⟨p, hpi, hfp⟩ := (posMask_testBit_ex _ a).mp ha.2
    subst hpi
    have h1 : tIdx τ p.idx = (τ p).idx := tIdx_pos τ p
    have h2 : tIdx τ (τ p).idx = (τ (τ p)).idx := tIdx_pos τ (τ p)
    rw [h1, h2, hinv2 p]
  · intro a ha
    rw [mem_bitsF] at ha
    have hav := hsub a ha.2
    have h1 : tIdx τ a = (τ ⟨a, hav⟩).idx := tIdx_pos τ ⟨a, hav⟩
    have h2 : tIdx τ (τ ⟨a, hav⟩).idx = (τ (τ ⟨a, hav⟩)).idx := tIdx_pos τ (τ ⟨a, hav⟩)
    rw [h1, h2, hinv2 ⟨a, hav⟩]

/-- Reading `Mine` through `get_disk` is the bit test on the own set. -/
theorem get_disk_mine_decide (b : Board) (r : Pos) :
    decide (b.get_disk r = some Disk.Mine) = b.mine_disks.testBit r.idx := by
  rw [Board.get_disk]
  by_cases hc : PosSet.contains b.mine_disks r = true
  · rw [if_pos hc]
    rw [contains_eq_testBit] at hc
    simp [hc]
  · rw [if_neg hc]
    rw [contains_eq_testBit] at hc
    rw [Bool.not_eq_true] at hc
    rw [hc]
    by_cases ho : PosSet.contains b.others_disks r = true
    · rw [if_pos ho]; simp
    · rw [if_neg ho]; simp

/-- Reading `Others` through `get_disk` is the bit test on the opponent
set, for disjoint disk sets. -/
theorem get_disk_others_decide (b : Board) (r : Pos)
    (hd : b.mine_disks &&& b.others_disks = 0) :
    decide (b.get_disk r = some Disk.Others) = b.others_disks.testBit r.idx := by
  have hnand : ¬(b.mine_disks.testBit r.idx = true ∧
      b.others_disks.testBit r.idx = true) := by
    rintro ⟨h1, h2⟩
    have : (b.mine_disks &&& b.others_disks).testBit r.idx = true := by
      rw [Nat.testBit_land, h1, h2]
      rfl
    rw [hd, Nat.zero_testBit] at this
    exact Bool.false_ne_true this
  rw [Board.get_disk]
  by_cases hc : PosSet.contains b.mine_disks r = true
  · rw [if_pos hc]
    rw [contains_eq_testBit] at hc
    have ho : b.others_disks.testBit r.idx = false := by
      cases h2 : b.others_disks.testBit r.idx
      · rfl
      · exact absurd ⟨hc, h2⟩ hnand
    rw [ho]
    simp
  · rw [if_neg hc]
    by_cases ho : PosSet.contains b.others_disks r = true
    · rw [if_pos ho]
      rw [contains_eq_testBit] at ho
      simp [ho]
    · rw [if_neg ho]
      rw [contains_eq_testBit] at ho
      rw [Bool.not_eq_true] at ho
      rw [ho]
      simp

/-- The parity slot is invariant under an involutive board symmetry, on
well-formed boards (disk sets within the valid cells and disjoint). -/
theorem parity_transform (τ : Pos → Pos) (hinv2 : ∀ p : Pos, τ (τ p) = p)
    (b : Board)
    (hm : b.mine_disks &&& availableBits = b.mine_disks)
    (ho : b.others_disks &&& availableBits = b.others_disks)
    (hd : b.mine_disks &&& b.others_disks = 0) :
    board_parity_index (b.transform τ) = board_parity_index b := by
  have hmine : (b.transform τ).mine_disks =
      posMask (fun q => b.mine_disks.testBit (τ q).idx) := by
    rw [Board.transform, Board.ofCells]
    exact congrArg posMask (funext fun q => get_disk_mine_decide b (τ q))
  have hothers : (b.transform τ).others_disks =
      posMask (fun q => b.others_disks.testBit (τ q).idx) := by
    rw [Board.transform, Board.ofCells]
    exact congrArg posMask (funext fun q => get_disk_others_decide b (τ q) hd)
  rw [board_parity_index, board_parity_index, Board.count_disk, Board.count_disk,
    hmine, hothers, count_transform_mask τ hinv2 b.mine_disks hm,
    count_transform_mask τ hinv2 b.others_disks ho]

/-- Pointwise-equal functions map a list equally. -/
theorem map_congr_mem {α β : Type} (l : List α) (f g : α → β)
    (h : ∀ x ∈ l, f x = g x) : l.map f = l.map g := by
  induction l with
  | nil => rfl
  | cons x rest ih =>
    simp only [List.map_cons]
    rw [h x (List.mem_cons_self _ _), ih (fun y hy => h y (List.mem_cons_of_mem _ hy))]

/-- The instance whose cell set is the symmetry image of a given
instance's cell set. -/
def partnerFor (pat : List Pos) (τ : Pos → Pos) (inst : List Pos) : List Pos :=
  ((instancesOf pat).find?
    (fun i2 => posSetOfList i2 == posSetOfList (inst.map τ))).getD []

/-- The decidable facts about one declared pattern and one symmetry that
the invariance argument consumes: size bounds, well-formedness of the
stored orderings, closure and invertibility of the digit permutations,
and the instance matching induced by the symmetry (including that the
matching permutes the instance list). -/
@[reducible] def SymCheck (pat : List Pos) (τ : Pos → Pos) : Prop :=
  pat.length ≤ 10 ∧ 3 ^ pat.length ≤ 65535 ∧
  (piZeroOf pat).length = pat.length ∧
  (∀ pi2 ∈ (firstOrdsOf pat).tail, pi2.Nodup ∧ pi2.length = pat.length ∧
    ∀ p ∈ piZeroOf pat, p ∈ pi2) ∧
  (∀ r1 ∈ rhosOf pat, ∀ r2 ∈ rhosOf pat,
    r1.map (fun r => r2.getD r 0) ∈ rhosOf pat ∨
    r1.map (fun r => r2.getD r 0) = List.range pat.length) ∧
  (∀ r1 ∈ rhosOf pat, ∃ r2 ∈ rhosOf pat,
    r2.map (fun r => r1.getD r 0) = List.range pat.length) ∧
  (∀ inst ∈ instancesOf pat, inst.length = pat.length) ∧
  (∀ inst ∈ instancesOf pat,
    (partnerFor pat τ inst).length = pat.length ∧
    (∀ p ∈ inst.map τ, p ∈ partnerFor pat τ inst) ∧
    ((inst.map τ).map (fun p => posIndexOf p (partnerFor pat τ inst)) ∈ rhosOf pat ∨
     (inst.map τ).map (fun p => posIndexOf p (partnerFor pat τ inst)) =
       List.range pat.length)) ∧
  ((instancesOf pat).map (partnerFor pat τ)).Perm (instancesOf pat)

/-- The board symmetries of the claim: the horizontal mirror, the
vertical mirror, and the half-turn they generate. -/
def boardSymmetries : List (Pos → Pos) :=
  [hFlipPos, vFlipPos, fun p => hFlipPos (vFlipPos p)]


set_option maxHeartbeats 4000000 in
theorem symCheck_hflip : ∀ pat ∈ PATTERNS, SymCheck pat hFlipPos := by decide

set_option maxHeartbeats 4000000 in
theorem symCheck_vflip : ∀ pat ∈ PATTERNS, SymCheck pat vFlipPos := by decide

set_option maxHeartbeats 4000000 in
theorem symCheck_hv : ∀ pat ∈ PATTERNS,
    SymCheck pat (fun p => hFlipPos (vFlipPos p)) := by decide

theorem hflip_invol : ∀ p ∈ Pos.allList, hFlipPos (hFlipPos p) = p := by decide

theorem vflip_invol : ∀ p ∈ Pos.allList, vFlipPos (vFlipPos p) = p := by decide

theorem hv_invol : ∀ p ∈ Pos.allList,
    hFlipPos (vFlipPos (hFlipPos (vFlipPos p))) = p := by decide

attribute [irreducible] PatternMap.from_pattern create_pattern_to_weight_map

/-- Lengths and entry bounds of the digit permutations. -/
theorem rhosOf_spec (pat : List Pos)
    (hlen0 : (piZeroOf pat).length = pat.length)
    (hc1 : ∀ pi2 ∈ (firstOrdsOf pat).tail, pi2.Nodup ∧ pi2.length = pat.length ∧
      ∀ p ∈ piZeroOf pat, p ∈ pi2) :
    ∀ rho ∈ rhosOf pat, rho.length = pat.length ∧ ∀ r ∈ rho, r < pat.length := by
  intro rho hrho
  obtain ⟨pi2, hpi2, heq⟩ := List.mem_map.mp hrho
  subst heq
  constructor
  · rw [List.length_map, hlen0]
  · intro r hr
    obtain ⟨p, hp, hpe⟩ := List.mem_map.mp hr
    subst hpe
    have h2 := hc1 pi2 hpi2
    have h3 := posIndexOf_lt p pi2 (h2.2.2 p hp)
    rw [h2.2.1] at h3
    exact h3

/-- The generated slot map is constant under every digit permutation of
the first cell set's orderings. -/
theorem rho_mark (pat : List Pos)
    (h10 : pat.length ≤ 10) (hcnt : 3 ^ pat.length ≤ 65535)
    (hlen0 : (piZeroOf pat).length = pat.length)
    (hc1 : ∀ pi2 ∈ (firstOrdsOf pat).tail, pi2.Nodup ∧ pi2.length = pat.length ∧
      ∀ p ∈ piZeroOf pat, p ∈ pi2)
    (hc2 : ∀ r1 ∈ rhosOf pat, ∀ r2 ∈ rhosOf pat,
      r1.map (fun r => r2.getD r 0) ∈ rhosOf pat ∨
      r1.map (fun r => r2.getD r 0) = List.range pat.length)
    (hc3 : ∀ r1 ∈ rhosOf pat, ∃ r2 ∈ rhosOf pat,
      r2.map (fun r => r1.getD r 0) = List.range pat.length) :
    ∀ rho ∈ rhosOf pat, ∀ j, j < 3 ^ pat.length →
      (mapOf pat).getD (digitMap rho j) 0 = (mapOf pat).getD j 0 := by
  have hspec := rhosOf_spec pat hlen0 hc1
  have hstep : ∀ pi2 ∈ (firstOrdsOf pat).tail, ∀ i,
      (Board.from_pattern_index pi2 i).pattern_index (piZeroOf pat) =
        digitMap ((piZeroOf pat).map (fun p => posIndexOf p pi2)) i := by
    intro pi2 h2 i
    exact step_eq_digitMap (piZeroOf pat) pi2 (hc1 pi2 h2).1 (hc1 pi2 h2).2.2
      (by rw [hlen0]; exact h10) i
  have hstep2 : ∀ g ∈ stepsOf pat, ∃ rho ∈ rhosOf pat, ∀ i, g i = digitMap rho i := by
    intro g hg
    obtain ⟨pi2, hpi2, hge⟩ := List.mem_map.mp hg
    subst hge
    exact ⟨(piZeroOf pat).map (fun p => posIndexOf p pi2),
      List.mem_map.mpr ⟨pi2, hpi2, rfl⟩, fun i => hstep pi2 hpi2 i⟩
  have hback : ∀ rho ∈ rhosOf pat, ∃ g ∈ stepsOf pat, ∀ i, g i = digitMap rho i := by
    intro rho hrho
    obtain ⟨pi2, hpi2, heq⟩ := List.mem_map.mp hrho
    exact ⟨_, List.mem_map.mpr ⟨pi2, hpi2, rfl⟩,
      fun i => by rw [hstep pi2 hpi2 i, heq]⟩
  have hH1 : ∀ g ∈ stepsOf pat, ∀ i, i < 3 ^ pat.length → g i < 3 ^ pat.length := by
    intro g hg i _
    obtain ⟨rho, hrho, hge⟩ := hstep2 g hg
    rw [hge]
    have h1 := digitMap_lt i rho
    rw [(hspec rho hrho).1] at h1
    exact h1
  have hH2 : ∀ g ∈ stepsOf pat, ∀ h2 ∈ stepsOf pat, ∀ i, i < 3 ^ pat.length →
      g (h2 i) = i ∨ ∃ k ∈ stepsOf pat, g (h2 i) = k i := by
    intro g hg h2 hh2 i hi
    obtain ⟨rho1, hrho1, hge⟩ := hstep2 g hg
    obtain ⟨rho2, hrho2, hh2e⟩ := hstep2 h2 hh2
    have hcomp : g (h2 i) = digitMap (rho1.map (fun r => rho2.getD r 0)) i := by
      rw [hh2e, hge, digitMap_comp]
      intro r hr
      rw [(hspec rho2 hrho2).1]
      exact (hspec rho1 hrho1).2 r hr
    rcases hc2 rho1 hrho1 rho2 hrho2 with hin | hrange
    · obtain ⟨k, hk, hke⟩ := hback _ hin
      exact Or.inr ⟨k, hk, by rw [hcomp, hke]⟩
    · left
      rw [hcomp, hrange, digitMap_range _ _ hi]
  have hH3 : ∀ g ∈ stepsOf pat, ∀ i, i < 3 ^ pat.length →
      g i = i ∨ ∃ h2 ∈ stepsOf pat, h2 (g i) = i := by
    intro g hg i hi
    obtain ⟨rho1, hrho1, hge⟩ := hstep2 g hg
    obtain ⟨rho2, hrho2, hre⟩ := hc3 rho1 hrho1
    obtain ⟨h2, hh2, hh2e⟩ := hback rho2 hrho2
    right
    refine ⟨h2, hh2, ?_⟩
    rw [hh2e, hge, digitMap_comp, hre, digitMap_range _ _ hi]
    intro r hr
    rw [(hspec rho1 hrho1).1]
    exact (hspec rho2 hrho2).2 r hr
  intro rho hrho j hj
  obtain ⟨g, hg, hge⟩ := hback rho hrho
  rw [← hge j]
  exact weight_map_orbit_constant (3 ^ pat.length) (stepsOf pat) hH1 hH2 hH3 hcnt
    j hj g hg

set_option maxHeartbeats 1600000 in
/-- The weighted sum of one table entry is invariant under a symmetry
satisfying the entry's checks. -/
theorem pd_sum_invariant (pat : List Pos) (off : Nat) (τ : Pos → Pos)
    (hck : SymCheck pat τ) (w : Weight) (b : Board) :
    ((buildPatternDef pat off).instances.map (fun inst =>
      w.pattern ((buildPatternDef pat off).offset +
        (buildPatternDef pat off).toWeight
          ((b.transform τ).pattern_index inst)))).sum =
    ((buildPatternDef pat off).instances.map (fun inst =>
      w.pattern ((buildPatternDef pat off).offset +
        (buildPatternDef pat off).toWeight (b.pattern_index inst)))).sum := by
  obtain ⟨h10, hcnt, hlen0, hc1, hc2, hc3, hilen, hc4, hc5⟩ := hck
  have hmark := rho_mark pat h10 hcnt hlen0 hc1 hc2 hc3
  have hinst : (buildPatternDef pat off).instances = instancesOf pat := rfl
  have hoff : (buildPatternDef pat off).offset = off := rfl
  have htw : ∀ i, (buildPatternDef pat off).toWeight i = (mapOf pat).getD i 0 :=
    fun _ => rfl
  simp only [hinst, hoff, htw]
  have hpoint : ∀ inst ∈ instancesOf pat,
      w.pattern (off + (mapOf pat).getD ((b.transform τ).pattern_index inst) 0) =
      w.pattern (off + (mapOf pat).getD
        (b.pattern_index (partnerFor pat τ inst)) 0) := by
    intro inst hin
    obtain ⟨hplen, hpmem, hrho⟩ := hc4 inst hin
    have hlen1 : inst.length ≤ 10 := by rw [hilen inst hin]; exact h10
    have hlen2 : (partnerFor pat τ inst).length ≤ 10 := by rw [hplen]; exact h10
    congr 1
    congr 1
    rw [pattern_index_eq_value _ inst hlen1, pattern_value_transform τ b inst,
      pattern_value_read b (inst.map τ) (partnerFor pat τ inst) hpmem,
      ← pattern_index_eq_value b (partnerFor pat τ inst) hlen2]
    have hj : b.pattern_index (partnerFor pat τ inst) < 3 ^ pat.length := by
      rw [pattern_index_eq_value b _ hlen2]
      have h1 := pattern_value_lt b (partnerFor pat τ inst)
      rw [hplen] at h1
      exact h1
    rcases hrho with hin2 | hrange
    · exact hmark _ hin2 _ hj
    · rw [hrange, digitMap_range _ _ hj]
  rw [map_congr_mem _ _ _ hpoint]
  have hmm : (instancesOf pat).map (fun inst =>
      w.pattern (off + (mapOf pat).getD
        (b.pattern_index (partnerFor pat τ inst)) 0)) =
      ((instancesOf pat).map (partnerFor pat τ)).map (fun i2 =>
        w.pattern (off + (mapOf pat).getD (b.pattern_index i2) 0)) := by
    rw [List.map_map]
    rfl
  rw [hmm]
  exact List.Perm.sum_eq (hc5.map _)

/-- Every table entry comes from a declared pattern. -/
theorem table_mem : ∀ (pats : List (List Pos)) (off : Nat) (pd : PatternDef),
    pd ∈ buildTableAux pats off → ∃ pat ∈ pats, ∃ o, pd = buildPatternDef pat o := by
  intro pats
  induction pats with
  | nil => intro off pd h; simp [buildTableAux] at h
  | cons p rest ih =>
    intro off pd h
    simp only [buildTableAux] at h
    rcases List.mem_cons.mp h with h1 | h1
    · exact ⟨p, List.mem_cons_self _ _, off, h1⟩
    · obtain ⟨pat, hmem, o, he⟩ := ih _ pd h1
      exact ⟨pat, List.mem_cons_of_mem _ hmem, o, he⟩


set_option maxHeartbeats 1600000 in
/-- Claim C5.  For every well-formed board (disk sets within the valid
cells and disjoint, the invariant maintained by `Board`), every weight
store, and every board symmetry generated by the horizontal and the
vertical mirror (the two mirrors and the half-turn they generate), the
weighted evaluator's non-terminal value of the transformed board equals
its value of the original board: the generated pattern table maps
symmetry-equivalent pattern arrangements to the same canonical weight
slot, and the parity slot is symmetry-invariant. -/
theorem evaluator_symmetry_invariance (τ : Pos → Pos)
    (hτ : τ ∈ boardSymmetries) (b : Board)
    (hm : b.mine_disks &&& availableBits = b.mine_disks)
    (ho : b.others_disks &&& availableBits = b.others_disks)
    (hd : b.mine_disks &&& b.others_disks = 0)
    (w : Weight) :
    compute_value buildTable w (b.transform τ) = compute_value buildTable w b := by
  have hck : (∀ pat ∈ PATTERNS, SymCheck pat τ) ∧ (∀ p : Pos, τ (τ p) = p) := by
    rw [boardSymmetries] at hτ
    simp only [List.mem_cons, List.not_mem_nil, or_false] at hτ
    rcases hτ with h | h | h <;> subst h
    · exact ⟨symCheck_hflip, fun p => hflip_invol p (mem_allList p)⟩
    · exact ⟨symCheck_vflip, fun p => vflip_invol p (mem_allList p)⟩
    · exact ⟨symCheck_hv, fun p => hv_invol p (mem_allList p)⟩
  rw [compute_value, compute_value, parity_transform τ hck.2 b hm ho hd]
  congr 1
  apply congrArg List.sum
  apply map_congr_mem
  intro pd hpd
  obtain ⟨pat, hpat, o, he⟩ := table_mem PATTERNS 0 pd hpd
  subst he
  exact pd_sum_invariant pat o τ (hck.1 pat hpat) w b

theorem evaluator_symmetry_invariance_witness :
    compute_value buildTable Weight.default (Board.new.transform hFlipPos) =
      compute_value buildTable Weight.default Board.new :=
  evaluator_symmetry_invariance hFlipPos (List.mem_cons_self _ _) Board.new
    (by decide) (by decide) (by decide) Weight.default
